import Mathlib

set_option linter.unusedVariables false

/-
Verification of the task-scheduling core of the scriptZero repository.
Three scheduler variants are embedded, each shallowly, from the Python source:

* `Chain`  — TaskChainScheduler   (src/engine/task_chain_scheduler.py)
* `Core`   — IntelligentScheduler (src/core/scheduler.py)
* `Engine` — TaskScheduler        (src/engine/task_scheduler.py)

Python dicts holding task objects are modelled as association lists of
(id, record); since all dicts of one scheduler alias the same task objects,
each scheduler keeps a single store `tasks` and the dicts/sets hold ids.
Submitted ids are required to be fresh (as the schedulers generate unique
ids), which makes the single-store aliasing model exact.  Each `async`
method runs under the scheduler lock, so a method call is one atomic step
of the transition relation.
-/

/-! ## Association lists (the Python dicts, keyed by task id) -/

namespace Assoc

def find {α : Type} : List (Nat × α) → Nat → Option α
  | [], _ => none
  | p :: rest, i => if p.1 == i then some p.2 else find rest i

def update {α : Type} : List (Nat × α) → Nat → (α → α) → List (Nat × α)
  | [], _, _ => []
  | p :: rest, i, f => (if p.1 == i then (p.1, f p.2) else p) :: update rest i f

def erase {α : Type} : List (Nat × α) → Nat → List (Nat × α)
  | [], _ => []
  | p :: rest, i => if p.1 == i then erase rest i else p :: erase rest i

end Assoc

/-! ## Chain: TaskChainScheduler -/

namespace Chain

inductive CStatus
  | pending
  | waitingDependencies
  | ready
  | running
  | completed
  | failed
  | skipped
deriving DecidableEq, Repr

/-- ChainTask dataclass (fields relevant to control flow). -/
structure CTask where
  id : Nat
  dependencies : List Nat
  enabled : Bool
  status : CStatus
deriving DecidableEq, Repr

abbrev lookupC (m : List (Nat × CTask)) (i : Nat) : Option CTask := Assoc.find m i

abbrev updateC (m : List (Nat × CTask)) (i : Nat) (f : CTask → CTask) : List (Nat × CTask) :=
  Assoc.update m i f

abbrev eraseC (m : List (Nat × CTask)) (i : Nat) : List (Nat × CTask) := Assoc.erase m i

def insertC (m : List (Nat × CTask)) (i : Nat) (t : CTask) : List (Nat × CTask) :=
  eraseC m i ++ [(i, t)]

/-- State of a TaskChainScheduler: chain_tasks, completed_chain_tasks,
the stop event and the running-chain flag. -/
structure ChainState where
  chainTasks : List (Nat × CTask)
  completedChainTasks : List (Nat × CTask)
  stopEvent : Bool
  runningChain : Bool
deriving DecidableEq, Repr

/-- `_check_dependencies_satisfied`: every dependency must be found in
completed_chain_tasks with status COMPLETED. -/
def depsSatisfiedChain (s : ChainState) (t : CTask) : Bool :=
  t.dependencies.all (fun d =>
    match lookupC s.completedChainTasks d with
    | some dt => dt.status == CStatus.completed
    | none => false)

/-- Outcome of awaiting a work item.  `crash` stands for a BaseException
(e.g. cancellation) that escapes the `except Exception` handler of
`_execute_single_chain_task` and propagates out of `execute_chain`. -/
inductive WorkOutcome
  | success
  | failure
  | crash
deriving DecidableEq, Repr

def setStatusC (s : ChainState) (i : Nat) (st : CStatus) : ChainState :=
  { s with chainTasks := updateC s.chainTasks i (fun t => { t with status := st }) }

/-- `_execute_single_chain_task`: mark RUNNING, run the work item.  On
success mark COMPLETED and move to completed_chain_tasks; on a caught
exception mark FAILED and return false; `crash` propagates (first
component `none`). -/
def executeSingle (s : ChainState) (i : Nat) (o : Nat → WorkOutcome) :
    Option Bool × ChainState :=
  let s1 := setStatusC s i CStatus.running
  match o i with
  | WorkOutcome.success =>
    let s2 := setStatusC s1 i CStatus.completed
    match lookupC s2.chainTasks i with
    | some t =>
      (some true,
        { s2 with completedChainTasks := insertC s2.completedChainTasks i t,
                  chainTasks := eraseC s2.chainTasks i })
    | none => (some true, s2)
  | WorkOutcome.failure => (some false, setStatusC s1 i CStatus.failed)
  | WorkOutcome.crash => (none, s1)

/-- `_check_dependent_tasks`: mark READY every chain task that depends on
`cid` and whose dependencies are now all completed. -/
def checkDependentChain (s : ChainState) (cid : Nat) : ChainState :=
  { s with chainTasks := s.chainTasks.map (fun p =>
      if p.2.dependencies.contains cid && depsSatisfiedChain s p.2 then
        (p.1, { p.2 with status := CStatus.ready })
      else p) }

/-- Result of `execute_chain`: whether the entry RuntimeError was raised,
whether an exception propagated out of the loop, the final state, the
ids whose work item was started, and the task handed to on_chain_fail. -/
structure ExecResult where
  alreadyRunning : Bool
  crashed : Bool
  final : ChainState
  executed : List Nat
  failedAt : Option Nat
deriving DecidableEq, Repr

/-- The `for task_id in task_ids` loop body of `execute_chain`. -/
def goChain (o : Nat → WorkOutcome) (eh : String) :
    ChainState → List Nat → List Nat → ExecResult
  | s, [], log => ⟨false, false, s, log, none⟩
  | s, i :: rest, log =>
    if s.stopEvent then ⟨false, false, s, log, none⟩
    else
      match lookupC s.chainTasks i with
      | none => goChain o eh s rest log
      | some ct =>
        if !ct.enabled then goChain o eh s rest log
        else if !depsSatisfiedChain s ct then
          goChain o eh (setStatusC s i CStatus.skipped) rest log
        else
          match executeSingle s i o with
          | (none, s1) => ⟨false, true, s1, log ++ [i], none⟩
          | (some ok, s1) =>
            if !ok && eh == "stop" then ⟨false, false, s1, log ++ [i], some i⟩
            else goChain o eh (checkDependentChain s1 i) rest (log ++ [i])

def clearRunning (s : ChainState) : ChainState := { s with runningChain := false }

/-- `execute_chain`: raises RuntimeError if a chain is already running;
otherwise sets the flag, runs the loop, and the `finally` clause clears
the flag on every exit path. -/
def executeChain (s : ChainState) (ids : List Nat) (eh : String)
    (o : Nat → WorkOutcome) : ExecResult :=
  if s.runningChain then ⟨true, false, s, [], none⟩
  else
    let r := goChain o eh { s with runningChain := true } ids []
    { r with final := clearRunning r.final }

/-- Example chain task for the concrete scenarios. -/
def mkCTask (n : Nat) : CTask := ⟨n, [], true, CStatus.pending⟩

def c7state : ChainState :=
  ⟨[(1, mkCTask 1), (2, mkCTask 2), (3, mkCTask 3)], [], false, false⟩

def c7oracle : Nat → WorkOutcome :=
  fun n => if n == 2 then WorkOutcome.failure else WorkOutcome.success

def c9state : ChainState :=
  ⟨[(1, mkCTask 1), (2, mkCTask 2)], [], false, false⟩

def c9oracle : Nat → WorkOutcome :=
  fun n => if n == 1 then WorkOutcome.failure else WorkOutcome.success

def c10busy : ChainState := ⟨[(1, mkCTask 1)], [], false, true⟩

def c10idle : ChainState := ⟨[(1, mkCTask 1)], [], false, false⟩

end Chain

/-! ## Core: IntelligentScheduler -/

namespace Core

inductive TStatus
  | pending
  | running
  | completed
  | failed
  | cancelled
deriving DecidableEq, Repr

/-- Task of src/core/scheduler.py.  `heap_key = (priority, created_at,
task_id)` compared ascending, so a smaller priority value pops first. -/
structure Task where
  taskId : Nat
  priority : Int
  createdAt : Nat
  dependencies : List Nat
  status : TStatus
deriving DecidableEq, Repr

abbrev lookupT (m : List (Nat × Task)) (i : Nat) : Option Task := Assoc.find m i

abbrev updateT (m : List (Nat × Task)) (i : Nat) (f : Task → Task) : List (Nat × Task) :=
  Assoc.update m i f

def insertT (m : List (Nat × Task)) (i : Nat) (t : Task) : List (Nat × Task) :=
  m ++ [(i, t)]

/-- IntelligentScheduler state: the `tasks` dict (object store), the
heap `task_queue` (ids; the heap key fields are immutable), the
`running_tasks` set, the terminal dicts, and the ResourcePool counter. -/
structure Sched where
  tasks : List (Nat × Task)
  queue : List Nat
  runningTasks : List Nat
  completedIds : List Nat
  failedIds : List Nat
  currentTasks : Nat
  maxConcurrent : Nat
deriving DecidableEq, Repr

def statusOf (s : Sched) (i : Nat) : Option TStatus :=
  (lookupT s.tasks i).map (fun t => t.status)

/-- `_are_dependencies_satisfied`: every dependency id must be a known
task whose status is COMPLETED (looked up in `self.tasks`). -/
def depsSatisfied (s : Sched) (i : Nat) : Bool :=
  match lookupT s.tasks i with
  | none => false
  | some t => t.dependencies.all (fun d =>
      match lookupT s.tasks d with
      | none => false
      | some dt => dt.status == TStatus.completed)

/-- `add_task`: store the task, then push it onto the queue only when its
dependencies are already satisfied.  There is no validation and no
failure path: the function always returns the new task id. -/
def addTask (s : Sched) (t : Task) : Sched :=
  let s1 := { s with tasks := insertT s.tasks t.taskId t }
  if depsSatisfied s1 t.taskId then { s1 with queue := s1.queue ++ [t.taskId] } else s1

/-- `Task.__lt__` via `heap_key = (priority, created_at, task_id)`,
here in non-strict form for the sort. -/
def heapKeyLe (a b : Task) : Bool :=
  (decide (a.priority < b.priority)) ||
  ((a.priority == b.priority) &&
    ((decide (a.createdAt < b.createdAt)) ||
      ((a.createdAt == b.createdAt) && (decide (a.taskId ≤ b.taskId)))))

def leKey (s : Sched) (i j : Nat) : Bool :=
  match lookupT s.tasks i, lookupT s.tasks j with
  | some a, some b => heapKeyLe a b
  | _, _ => true

def insertSorted (s : Sched) (i : Nat) : List Nat → List Nat
  | [] => [i]
  | j :: rest => if leKey s i j then i :: j :: rest else j :: insertSorted s i rest

/-- The order in which `heapq.heappop` drains the queue: nondecreasing
heap key. -/
def sortQueue (s : Sched) : List Nat := s.queue.foldr (insertSorted s) []

/-- The drain loop of `_scheduler_loop`: pop every queued task; a task
already running goes back, otherwise it is admitted when
`check_availability` allowed it, else it goes back.  `avail` is fixed for
the whole tick because `resource_pool.current_tasks` is only incremented
later, inside `_execute_task`. -/
def tickLoop (s : Sched) (avail : Bool) :
    List Nat → List Nat → List Nat → List Nat → List Nat × List Nat × List Nat
  | [], run, rem, rts => (run, rem, rts)
  | i :: order, run, rem, rts =>
    if i ∈ rts then tickLoop s avail order run (rem ++ [i]) rts
    else if avail then tickLoop s avail order (run ++ [i]) rem (i :: rts)
    else tickLoop s avail order run (rem ++ [i]) rts

/-- One iteration of `_scheduler_loop` followed by the start of
`_execute_task` for each admitted task (status RUNNING, `acquire()`).
Returns the new state and the admitted tasks in start order. -/
def startRunning (st : Sched) (i : Nat) : Sched :=
  { st with tasks := updateT st.tasks i (fun t => { t with status := TStatus.running }),
            currentTasks := st.currentTasks + 1 }

def tick (s : Sched) (resourceOk : Bool) : Sched × List Nat :=
  let order := sortQueue s
  let avail := resourceOk && decide (s.currentTasks < s.maxConcurrent)
  let r := tickLoop s avail order [] [] s.runningTasks
  let s1 := { s with queue := r.2.1, runningTasks := r.2.2 }
  (r.1.foldl startRunning s1, r.1)

/-- `_check_dependent_tasks`: push every PENDING task that depends on
`cid` and whose dependencies are now all satisfied. -/
def checkDependentTasks (s : Sched) (cid : Nat) : Sched :=
  { s with queue := s.queue ++ (s.tasks.filter (fun p =>
      p.2.status == TStatus.pending && p.2.dependencies.contains cid &&
      depsSatisfied s p.1)).map (fun p => p.1) }

inductive Outcome
  | success
  | failure
deriving DecidableEq, Repr

/-- Tail of `_execute_task` once the work item resolved: set the terminal
status (a timeout raises and is caught, hence FAILED), release the
resource slot, discard from running, record in the terminal dict, then
`_check_dependent_tasks`. -/
def finishTask (s : Sched) (i : Nat) (o : Outcome) : Sched :=
  let st := match o with
    | Outcome.success => TStatus.completed
    | Outcome.failure => TStatus.failed
  let s1 := { s with tasks := updateT s.tasks i (fun t => { t with status := st }) }
  let s2 := { s1 with
      currentTasks := s1.currentTasks - 1,
      runningTasks := s1.runningTasks.filter (fun j => !(j == i)),
      completedIds := if o = Outcome.success then s1.completedIds ++ [i] else s1.completedIds,
      failedIds := if o = Outcome.failure then s1.failedIds ++ [i] else s1.failedIds }
  checkDependentTasks s2 i

/-- `cancel_task`: succeeds only on a task whose status is PENDING; the
task is marked CANCELLED but is NOT removed from the queue. -/
def cancelTask (s : Sched) (i : Nat) : Bool × Sched :=
  match lookupT s.tasks i with
  | some t =>
    if t.status == TStatus.pending then
      let m2 := updateT s.tasks i (fun u => { u with status := TStatus.cancelled })
      (true, { s with tasks := m2 })
    else (false, s)
  | none => (false, s)

def initSched (c : Nat) : Sched := ⟨[], [], [], [], [], 0, c⟩

/-- Atomic steps of the IntelligentScheduler. -/
inductive Step : Sched → Sched → Prop
  | add {s : Sched} (t : Task) (hfresh : lookupT s.tasks t.taskId = none)
      (hst : t.status = TStatus.pending) : Step s (addTask s t)
  | tick {s : Sched} (ok : Bool) : Step s (tick s ok).1
  | finish {s : Sched} (i : Nat) (o : Outcome) (hrun : i ∈ s.runningTasks) :
      Step s (finishTask s i o)
  | cancel {s : Sched} (i : Nat) : Step s (cancelTask s i).2

/-- States reachable from a given state by scheduler steps. -/
inductive ReachFrom (s : Sched) : Sched → Prop
  | refl : ReachFrom s s
  | step {s2 s3 : Sched} : ReachFrom s s2 → Step s2 s3 → ReachFrom s s3

inductive Reachable : Sched → Prop
  | init (c : Nat) : Reachable (initSched c)
  | step {s s2 : Sched} : Reachable s → Step s s2 → Reachable s2

/-- Concrete input for the ordering scenario: task 10 has priority value
2, task 11 has priority value 1, same created_at; both queued. -/
def c2taskA : Task := ⟨10, 2, 5, [], TStatus.pending⟩

def c2taskB : Task := ⟨11, 1, 5, [], TStatus.pending⟩

def c2sched : Sched := ⟨[(10, c2taskA), (11, c2taskB)], [10, 11], [], [], [], 0, 10⟩

def c6task : Task := ⟨7, 0, 0, [], TStatus.pending⟩

def c6sched : Sched := addTask (initSched 10) c6task

/-- Joint inductive invariant of the IntelligentScheduler: the task map
has unique keys, the queue has no duplicates and is disjoint from the
running set, queued tasks exist and are not COMPLETED, running tasks
have status RUNNING, queued tasks have all dependencies satisfied, and
running tasks have every dependency COMPLETED. -/
def Inv (s : Sched) : Prop :=
  (s.tasks.map (fun p => p.1)).Nodup ∧
  s.queue.Nodup ∧
  (∀ i ∈ s.runningTasks, i ∉ s.queue) ∧
  (∀ i ∈ s.queue, ∃ t, lookupT s.tasks i = some t ∧
    t.status ≠ TStatus.completed) ∧
  (∀ i ∈ s.runningTasks, ∃ t, lookupT s.tasks i = some t ∧
    t.status = TStatus.running) ∧
  (∀ i ∈ s.queue, depsSatisfied s i = true) ∧
  (∀ i ∈ s.runningTasks, ∀ t, lookupT s.tasks i = some t →
    ∀ d ∈ t.dependencies, ∃ dt, lookupT s.tasks d = some dt ∧
      dt.status = TStatus.completed)

/-- Concrete run for the amended claim C1: task 1 completes, then its
dependent task 2 is admitted and runs. -/
def c1ctask1 : Task := ⟨1, 0, 0, [], TStatus.pending⟩

def c1ctask2 : Task := ⟨2, 0, 1, [1], TStatus.pending⟩

def c1cs1 : Sched := addTask (initSched 4) c1ctask1

def c1cs2 : Sched := (tick c1cs1 true).1

def c1cs3 : Sched := finishTask c1cs2 1 Outcome.success

def c1cs4 : Sched := addTask c1cs3 c1ctask2

def c1cs5 : Sched := (tick c1cs4 true).1

def c8task : Task := ⟨5, 0, 0, [99], TStatus.pending⟩

end Core

/-! ## Engine: TaskScheduler -/

namespace Engine

inductive EStatus
  | pending
  | queued
  | running
  | completed
  | failed
  | cancelled
  | timeout
deriving DecidableEq, Repr

/-- Task dataclass of src/engine/task_scheduler.py.  `priority` is
`TaskPriority.value` (LOWEST 0 .. HIGHEST 4); `hasTimeout` records
whether `task.timeout` is truthy. -/
structure Task where
  id : Nat
  priority : Nat
  createdAt : Nat
  dependencies : List Nat
  hasTimeout : Bool
  retryCount : Nat
  maxRetries : Nat
  status : EStatus
deriving DecidableEq, Repr

abbrev lookupE (m : List (Nat × Task)) (i : Nat) : Option Task := Assoc.find m i

abbrev updateE (m : List (Nat × Task)) (i : Nat) (f : Task → Task) : List (Nat × Task) :=
  Assoc.update m i f

def insertE (m : List (Nat × Task)) (i : Nat) (t : Task) : List (Nat × Task) :=
  m ++ [(i, t)]

def insertId (l : List Nat) (i : Nat) : List Nat := if i ∈ l then l else l ++ [i]

def eraseId (l : List Nat) (i : Nat) : List Nat := l.filter (fun j => !(j == i))

/-- TaskScheduler state: the object store plus the key sets of the
`pending_tasks`, `running_tasks`, `completed_tasks` dicts and the heap
entries of `task_queue` (its key fields are immutable, so ids suffice). -/
structure Sched where
  maxConcurrent : Nat
  tasks : List (Nat × Task)
  pendingIds : List Nat
  queue : List Nat
  runningIds : List Nat
  completedIds : List Nat
deriving DecidableEq, Repr

def statusOfE (s : Sched) (i : Nat) : Option EStatus :=
  (lookupE s.tasks i).map (fun t => t.status)

/-- One dependency check of `_are_dependencies_met`:
`completed_tasks.get(dep_id)` must exist with status COMPLETED. -/
def depDoneE (s : Sched) (d : Nat) : Bool :=
  decide (d ∈ s.completedIds) &&
    (match lookupE s.tasks d with
     | some u => u.status == EStatus.completed
     | none => false)

/-- `_are_dependencies_met`. -/
def depsMet (s : Sched) (t : Task) : Bool := t.dependencies.all (fun d => depDoneE s d)

/-- Strict comparison of the heap keys
`(-task.priority.value, task.created_at, task.id)`. -/
def keyLt (a b : Task) : Bool :=
  (decide (b.priority < a.priority)) ||
  ((b.priority == a.priority) &&
    ((decide (a.createdAt < b.createdAt)) ||
      ((a.createdAt == b.createdAt) && (decide (a.id < b.id)))))

def lessIds (s : Sched) (j i : Nat) : Bool :=
  match lookupE s.tasks j, lookupE s.tasks i with
  | some a, some b => keyLt a b
  | _, _ => false

def minFrom (s : Sched) : Nat → List Nat → Nat
  | best, [] => best
  | best, j :: rest => if lessIds s j best then minFrom s j rest else minFrom s best rest

def eraseFirst : List Nat → Nat → List Nat
  | [], _ => []
  | j :: rest, i => if j == i then rest else j :: eraseFirst rest i

/-- `heapq.heappop`: remove and return the entry with the least key. -/
def popMin (s : Sched) : Option (Nat × List Nat) :=
  match s.queue with
  | [] => none
  | j :: rest =>
    let m := minFrom s j rest
    some (m, eraseFirst s.queue m)

/-- `_start_task`: status RUNNING and registration in `running_tasks`
(the execution itself finishes later, in `execFinish`). -/
def startTask (s : Sched) (i : Nat) : Sched :=
  { s with tasks := updateE s.tasks i (fun t => { t with status := EStatus.running }),
           runningIds := insertId s.runningIds i }

/-- `_try_start_next_task`: respect `max_concurrent`, pop the least
entry, push it back if that task is already running, else start it.
No status check is made, so a CANCELLED entry is started as well. -/
def tryStartNext (s : Sched) : Sched :=
  if s.maxConcurrent ≤ s.runningIds.length then s
  else
    match popMin s with
    | none => s
    | some (i, rest) =>
      if i ∈ s.runningIds then { s with queue := rest ++ [i] }
      else startTask { s with queue := rest } i

/-- `_queue_task`: status QUEUED, heap push, then `_try_start_next_task`. -/
def queueTask (s : Sched) (i : Nat) : Sched :=
  let s1 := { s with tasks := updateE s.tasks i (fun t => { t with status := EStatus.queued }) }
  tryStartNext { s1 with queue := s1.queue ++ [i] }

/-- `_evaluate_task`: queue the task iff its dependencies are met.
No status check is made, so a CANCELLED pending task whose dependencies
complete later is re-queued. -/
def evaluateTask (s : Sched) (i : Nat) : Sched :=
  match lookupE s.tasks i with
  | none => s
  | some t => if depsMet s t then queueTask s i else s

/-- `submit_task`: store in `pending_tasks`, then `_evaluate_task`. -/
def submitTask (s : Sched) (t : Task) : Sched :=
  let s1 := { s with tasks := insertE s.tasks t.id t,
                     pendingIds := insertId s.pendingIds t.id }
  evaluateTask s1 t.id

/-- `_check_dependent_tasks`: re-evaluate every pending task that lists
`cid` among its dependencies. -/
def checkDependentTasks (s : Sched) (cid : Nat) : Sched :=
  (s.pendingIds.filter (fun i =>
    match lookupE s.tasks i with
    | some t => t.dependencies.contains cid
    | none => false)).foldl evaluateTask s

/-- `_on_task_complete` (the done callback): drop from `running_tasks`;
if still pending, move to `completed_tasks` and check dependents. -/
def onTaskComplete (s : Sched) (i : Nat) : Sched :=
  let s1 := { s with runningIds := eraseId s.runningIds i }
  if i ∈ s1.pendingIds then
    checkDependentTasks
      { s1 with pendingIds := eraseId s1.pendingIds i,
                completedIds := insertId s1.completedIds i } i
  else s1

/-- How the awaited coroutine of `_execute_task_with_timeout` resolved. -/
inductive Outcome
  | success
  | timeout
  | error
deriving DecidableEq, Repr

/-- `_execute_task_with_timeout` after the work item resolved, followed
by the done callback `_on_task_complete`.  An `asyncio.TimeoutError` is
caught BEFORE the generic `except Exception` branch, so a timeout sets
status TIMEOUT immediately and is never retried; only a generic
exception takes the retry path. -/
def execFinish (s : Sched) (i : Nat) (o : Outcome) : Sched :=
  let s1 :=
    match o with
    | Outcome.success =>
      { s with tasks := updateE s.tasks i (fun t => { t with status := EStatus.completed }) }
    | Outcome.timeout =>
      { s with tasks := updateE s.tasks i (fun t => { t with status := EStatus.timeout }) }
    | Outcome.error =>
      match lookupE s.tasks i with
      | none => s
      | some t =>
        if t.retryCount < t.maxRetries then
          let m2 := updateE s.tasks i (fun u =>
            { u with retryCount := u.retryCount + 1, status := EStatus.pending })
          evaluateTask { s with tasks := m2, pendingIds := insertId s.pendingIds i } i
        else
          { s with tasks := updateE s.tasks i (fun t => { t with status := EStatus.failed }) }
  onTaskComplete s1 i

/-- `cancel_task`: a running task is cancelled cooperatively and its done
callback fires; a pending task is merely marked CANCELLED (it stays in
the queue if it was queued); otherwise the call fails. -/
def cancelTaskE (s : Sched) (i : Nat) : Bool × Sched :=
  if i ∈ s.runningIds then
    let s1 :=
      if i ∈ s.pendingIds then
        let m2 := updateE s.tasks i (fun t => { t with status := EStatus.cancelled })
        { s with tasks := m2 }
      else s
    (true, onTaskComplete s1 i)
  else if i ∈ s.pendingIds then
    let m2 := updateE s.tasks i (fun t => { t with status := EStatus.cancelled })
    (true, { s with tasks := m2 })
  else (false, s)

def initSched (c : Nat) : Sched := ⟨c, [], [], [], [], []⟩

/-- The ids of `S` are avoided by the scheduler: none is completed,
running or queued, and every stored task with id in `S` depends on some
id in `S`. -/
def Avoid (S : List Nat) (s : Sched) : Prop :=
  (∀ x ∈ S, x ∉ s.completedIds) ∧ (∀ x ∈ S, x ∉ s.runningIds) ∧
  (∀ x ∈ S, x ∉ s.queue) ∧
  (∀ x ∈ S, ∀ t, lookupE s.tasks x = some t → ∃ d ∈ t.dependencies, d ∈ S)

/-- Plumbing frame: a store step that preserves every record's
retry_count and max_retries pointwise, and either preserves its status
or writes QUEUED or RUNNING to it (the only statuses the requeue/start
helpers of the scheduler write). -/
def PFrame (m m2 : List (Nat × Task)) : Prop :=
  ∀ j t2, lookupE m2 j = some t2 → ∃ t1, lookupE m j = some t1 ∧
    t2.retryCount = t1.retryCount ∧ t2.maxRetries = t1.maxRetries ∧
    (t2.status = t1.status ∨ t2.status = EStatus.queued ∨ t2.status = EStatus.running)

/-- Atomic steps of the TaskScheduler.  Submissions carry a fresh id and
the `schedule_task` defaults (status PENDING, retry_count 0); a finish
with outcome `timeout` requires the task to have a timeout set. -/
inductive Step : Sched → Sched → Prop
  | submit {s : Sched} (t : Task) (hfresh : lookupE s.tasks t.id = none)
      (hst : t.status = EStatus.pending) (hrc : t.retryCount = 0) :
      Step s (submitTask s t)
  | finish {s : Sched} (i : Nat) (o : Outcome) (hrun : i ∈ s.runningIds)
      (hto : o = Outcome.timeout → ∃ t, lookupE s.tasks i = some t ∧ t.hasTimeout = true) :
      Step s (execFinish s i o)
  | cancel {s : Sched} (i : Nat) : Step s (cancelTaskE s i).2

inductive Reachable : Sched → Prop
  | init (c : Nat) : Reachable (initSched c)
  | step {s s2 : Sched} : Reachable s → Step s s2 → Reachable s2

inductive ReachFrom (s : Sched) : Sched → Prop
  | refl : ReachFrom s s
  | step {s2 s3 : Sched} : ReachFrom s s2 → Step s2 s3 → ReachFrom s s3

/-- Steps in which every submission whose id lies in `S` has a
dependency in `S` (that is, the ids of `S` form a dependency cycle among
themselves whenever they are submitted at all). -/
inductive StepCyc (S : List Nat) : Sched → Sched → Prop
  | submit {s : Sched} (t : Task) (hfresh : lookupE s.tasks t.id = none)
      (hst : t.status = EStatus.pending) (hrc : t.retryCount = 0)
      (hcyc : t.id ∈ S → ∃ d ∈ t.dependencies, d ∈ S) :
      StepCyc S s (submitTask s t)
  | finish {s : Sched} (i : Nat) (o : Outcome) (hrun : i ∈ s.runningIds)
      (hto : o = Outcome.timeout → ∃ t, lookupE s.tasks i = some t ∧ t.hasTimeout = true) :
      StepCyc S s (execFinish s i o)
  | cancel {s : Sched} (i : Nat) : StepCyc S s (cancelTaskE s i).2

inductive ReachCyc (S : List Nat) : Sched → Prop
  | init (c : Nat) : ReachCyc S (initSched c)
  | step {s s2 : Sched} : ReachCyc S s → StepCyc S s s2 → ReachCyc S s2

/-- Steps in which every execution attempt of task `i0` fails with a
generic exception (no success, no timeout) and `i0` is never cancelled. -/
inductive StepErr (i0 : Nat) : Sched → Sched → Prop
  | submit {s : Sched} (t : Task) (hfresh : lookupE s.tasks t.id = none)
      (hst : t.status = EStatus.pending) (hrc : t.retryCount = 0) :
      StepErr i0 s (submitTask s t)
  | finish {s : Sched} (i : Nat) (o : Outcome) (hrun : i ∈ s.runningIds)
      (hto : o = Outcome.timeout → ∃ t, lookupE s.tasks i = some t ∧ t.hasTimeout = true)
      (herr : i = i0 → o = Outcome.error) :
      StepErr i0 s (execFinish s i o)
  | cancel {s : Sched} (i : Nat) (hne : i ≠ i0) : StepErr i0 s (cancelTaskE s i).2

inductive ReachErr (i0 : Nat) : Sched → Prop
  | init (c : Nat) : ReachErr i0 (initSched c)
  | step {s s2 : Sched} : ReachErr i0 s → StepErr i0 s s2 → ReachErr i0 s2

/-- Concrete tasks for the cancelled-dependency scenario (claim C1):
task 2 is cancelled while queued, task 3 depends on task 2. -/
def c1task1 : Task := ⟨1, 2, 1, [], false, 0, 3, EStatus.pending⟩

def c1task2 : Task := ⟨2, 3, 2, [], false, 0, 3, EStatus.pending⟩

def c1task3 : Task := ⟨3, 0, 3, [2], false, 0, 3, EStatus.pending⟩

def c1task4 : Task := ⟨4, 0, 4, [], false, 0, 3, EStatus.pending⟩

def c1s1 : Sched := submitTask (initSched 1) c1task1

def c1s2 : Sched := submitTask c1s1 c1task2

def c1s3 : Sched := (cancelTaskE c1s2 2).2

def c1s4 : Sched := submitTask c1s3 c1task3

def c1s5 : Sched := execFinish c1s4 1 Outcome.success

def c1s6 : Sched := submitTask c1s5 c1task4

def c1s7 : Sched := execFinish c1s6 2 Outcome.success

/-- Concrete self-cycle submission for claim C3. -/
def c3task : Task := ⟨0, 2, 0, [0], false, 0, 3, EStatus.pending⟩

/-- Concrete running task with a timeout for claim C4. -/
def c4task : Task := ⟨0, 2, 0, [], true, 0, 3, EStatus.pending⟩

def c4running : Sched := submitTask (initSched 1) c4task

/-- Concrete always-failing task for claim C5 (max_retries 1). -/
def c5task : Task := ⟨0, 2, 0, [], false, 0, 1, EStatus.pending⟩

def c5s1 : Sched := submitTask (initSched 1) c5task

def c5s2 : Sched := execFinish c5s1 0 Outcome.error

/-- Concrete two-task queue for the ordering theorem of claim C2:
task 1 has the higher priority value, task 2 the lower. -/
def c2etask1 : Task := ⟨1, 3, 9, [], false, 0, 3, EStatus.pending⟩

def c2etask2 : Task := ⟨2, 1, 5, [], false, 0, 3, EStatus.pending⟩

def c2esched : Sched :=
  ⟨1, [(1, c2etask1), (2, c2etask2)], [1, 2], [1, 2], [], []⟩

end Engine

/-! ## Association list lemmas -/

theorem Assoc.find_update_self {α : Type} (m : List (Nat × α)) (i : Nat) (f : α → α) :
    Assoc.find (Assoc.update m i f) i = (Assoc.find m i).map f := by
  induction m with
  | nil => rfl
  | cons p rest ih =>
    by_cases h : (p.1 == i) = true
    · simp [Assoc.find, Assoc.update, h]
    · simp only [Bool.not_eq_true] at h
      simp [Assoc.find, Assoc.update, h, ih]

theorem Assoc.find_update_ne {α : Type} (m : List (Nat × α)) (i j : Nat) (f : α → α)
    (h : j ≠ i) : Assoc.find (Assoc.update m i f) j = Assoc.find m j := by
  induction m with
  | nil => rfl
  | cons p rest ih =>
    by_cases hki : (p.1 == i) = true
    · have hkj : (p.1 == j) = false := by
        have : p.1 = i := by simpa using hki
        simp [this]
        omega
      simp [Assoc.find, Assoc.update, hki, hkj, ih]
    · simp only [Bool.not_eq_true] at hki
      by_cases hkj : (p.1 == j) = true
      · simp [Assoc.find, Assoc.update, hki, hkj]
      · simp only [Bool.not_eq_true] at hkj
        simp [Assoc.find, Assoc.update, hki, hkj, ih]

theorem Assoc.find_append_some {α : Type} (m m2 : List (Nat × α)) (j : Nat) (t : α)
    (h : Assoc.find m j = some t) : Assoc.find (m ++ m2) j = some t := by
  induction m with
  | nil => simp [Assoc.find] at h
  | cons p rest ih =>
    by_cases hkj : (p.1 == j) = true
    · simp [Assoc.find, hkj] at h ⊢
      exact h
    · simp only [Bool.not_eq_true] at hkj
      simp [Assoc.find, hkj] at h ⊢
      exact ih h

theorem Assoc.find_append_none {α : Type} (m m2 : List (Nat × α)) (j : Nat)
    (h : Assoc.find m j = none) : Assoc.find (m ++ m2) j = Assoc.find m2 j := by
  induction m with
  | nil => rfl
  | cons p rest ih =>
    by_cases hkj : (p.1 == j) = true
    · simp [Assoc.find, hkj] at h
    · simp only [Bool.not_eq_true] at hkj
      simp [Assoc.find, hkj] at h ⊢
      exact ih h

/-! ## Chain theorems -/

theorem Chain.lookupC_setStatus_ne (s : Chain.ChainState) (i j : Nat) (st : Chain.CStatus)
    (h : j ≠ i) :
    Chain.lookupC (Chain.setStatusC s i st).chainTasks j = Chain.lookupC s.chainTasks j :=
  Assoc.find_update_ne s.chainTasks i j _ h

theorem Chain.goChain_already (o : Nat → Chain.WorkOutcome) (eh : String) :
    ∀ (ids : List Nat) (s : Chain.ChainState) (log : List Nat),
    (Chain.goChain o eh s ids log).alreadyRunning = false := by
  intro ids
  induction ids with
  | nil => intro s log; rfl
  | cons i rest ih =>
    intro s log
    simp only [Chain.goChain]
    split
    · rfl
    · split
      · exact ih _ _
      · split
        · exact ih _ _
        · split
          · exact ih _ _
          · split
            · rfl
            · split
              · rfl
              · exact ih _ _

/-- Claim C10: `execute_chain` raises RuntimeError when a chain is
already in progress, leaving the state untouched and starting nothing;
otherwise the running-chain flag is cleared by the `finally` clause on
every exit path (normal, stop event, propagated exception), so a
subsequent `execute_chain` call is accepted. -/
theorem c10_execute_chain_reentrancy (s : Chain.ChainState) (ids : List Nat) (eh : String)
    (o : Nat → Chain.WorkOutcome) :
    (s.runningChain = true →
      Chain.executeChain s ids eh o =
        ⟨true, false, s, [], none⟩) ∧
    (s.runningChain = false →
      (Chain.executeChain s ids eh o).alreadyRunning = false ∧
      (Chain.executeChain s ids eh o).final.runningChain = false ∧
      ∀ (ids2 : List Nat) (eh2 : String) (o2 : Nat → Chain.WorkOutcome),
        (Chain.executeChain (Chain.executeChain s ids eh o).final ids2 eh2 o2).alreadyRunning
          = false) := by
  constructor
  · intro h
    simp [Chain.executeChain, h]
  · intro h
    have h1 : (Chain.executeChain s ids eh o).alreadyRunning = false := by
      simp [Chain.executeChain, h, Chain.goChain_already]
    have h2 : (Chain.executeChain s ids eh o).final.runningChain = false := by
      simp [Chain.executeChain, h, Chain.clearRunning]
    refine ⟨h1, h2, ?_⟩
    intro ids2 eh2 o2
    generalize hF : (Chain.executeChain s ids eh o).final = F at h2
    simp [Chain.executeChain, h2, Chain.goChain_already]

/-- Witness for C10 at concrete inputs: a busy scheduler rejects the
call unchanged; an idle one ends with the flag cleared. -/
theorem c10_witness :
    (Chain.c10busy.runningChain = true ∧
      Chain.executeChain Chain.c10busy [1] "stop" (fun _ => Chain.WorkOutcome.success) =
        ⟨true, false, Chain.c10busy, [], none⟩) ∧
    (Chain.c10idle.runningChain = false ∧
      (Chain.executeChain Chain.c10idle [1] "stop"
        (fun _ => Chain.WorkOutcome.crash)).final.runningChain = false) :=
  ⟨⟨rfl, (c10_execute_chain_reentrancy Chain.c10busy [1] "stop" _).1 rfl⟩,
   ⟨rfl, ((c10_execute_chain_reentrancy Chain.c10idle [1] "stop" _).2 rfl).2.1⟩⟩

/-- Counterexample to claim C7: in the 3-step chain where step 2 fails
under error_handling "stop", step 3 is left with status PENDING — it is
not marked SKIPPED (execute_chain merely breaks out of the loop). -/
theorem c7_stop_leaves_later_steps_pending :
    (Chain.executeChain Chain.c7state [1, 2, 3] "stop" Chain.c7oracle).failedAt = some 2 ∧
    (Chain.executeChain Chain.c7state [1, 2, 3] "stop" Chain.c7oracle).executed = [1, 2] ∧
    (Chain.lookupC (Chain.executeChain Chain.c7state [1, 2, 3] "stop"
        Chain.c7oracle).final.chainTasks 3).map Chain.CTask.status =
      some Chain.CStatus.pending ∧
    (Chain.lookupC (Chain.executeChain Chain.c7state [1, 2, 3] "stop"
        Chain.c7oracle).final.chainTasks 3).map Chain.CTask.status ≠
      some Chain.CStatus.skipped := by
  refine ⟨by decide, by decide, by decide, by decide⟩

/-- Claim C7 amended: with error_handling "stop", as soon as a step
fails the loop returns at once: the failing step is the last executed
one, on_chain_fail receives it, and every other task record — in
particular every remaining later step — is left exactly as it was
(status PENDING), not marked SKIPPED. -/
theorem c7_amended_stop_aborts_at_failing_step (s : Chain.ChainState) (i : Nat)
    (rest log : List Nat) (ct : Chain.CTask) (o : Nat → Chain.WorkOutcome)
    (hstop : s.stopEvent = false) (hl : Chain.lookupC s.chainTasks i = some ct)
    (hen : ct.enabled = true) (hdep : Chain.depsSatisfiedChain s ct = true)
    (ho : o i = Chain.WorkOutcome.failure) :
    Chain.goChain o "stop" s (i :: rest) log =
      ⟨false, false,
        Chain.setStatusC (Chain.setStatusC s i Chain.CStatus.running) i Chain.CStatus.failed,
        log ++ [i], some i⟩ ∧
    ∀ j, j ≠ i →
      Chain.lookupC (Chain.goChain o "stop" s (i :: rest) log).final.chainTasks j =
        Chain.lookupC s.chainTasks j := by
  have hgo : Chain.goChain o "stop" s (i :: rest) log =
      ⟨false, false,
        Chain.setStatusC (Chain.setStatusC s i Chain.CStatus.running) i Chain.CStatus.failed,
        log ++ [i], some i⟩ := by
    simp [Chain.goChain, hstop, hl, hen, hdep, Chain.executeSingle, ho]
  refine ⟨hgo, ?_⟩
  intro j hj
  rw [hgo]
  exact (Chain.lookupC_setStatus_ne _ i j _ hj).trans (Chain.lookupC_setStatus_ne _ i j _ hj)

/-- Witness for the amended C7 at the concrete 3-step chain, entering at
step 2 with step 1 already executed. -/
theorem c7_amended_witness :
    Chain.goChain Chain.c7oracle "stop" Chain.c7state (2 :: [3]) [1] =
      ⟨false, false,
        Chain.setStatusC (Chain.setStatusC Chain.c7state 2 Chain.CStatus.running) 2
          Chain.CStatus.failed,
        [1] ++ [2], some 2⟩ :=
  (c7_amended_stop_aborts_at_failing_step Chain.c7state 2 [3] [1] (Chain.mkCTask 2)
    Chain.c7oracle rfl (by decide) rfl (by decide) rfl).1

theorem Chain.goChain_retry_eq_continue (o : Nat → Chain.WorkOutcome) :
    ∀ (ids : List Nat) (s : Chain.ChainState) (log : List Nat),
    Chain.goChain o "retry" s ids log = Chain.goChain o "continue" s ids log := by
  intro ids
  induction ids with
  | nil => intro s log; rfl
  | cons i rest ih =>
    intro s log
    simp only [Chain.goChain]
    split
    · rfl
    · split
      · exact ih _ _
      · split
        · exact ih _ _
        · split
          · exact ih _ _
          · split
            · rfl
            · have h1 : (("retry" : String) == "stop") = false := by decide
              have h2 : (("continue" : String) == "stop") = false := by decide
              rw [h1, h2]
              simp only [Bool.and_false, Bool.false_eq_true, if_false]
              exact ih _ _

/-- Counterexample to claim C9: with error_handling "retry", the failing
step 1 is executed exactly once (no re-attempt) and the chain then
proceeds to execute step 2 instead of aborting; no chain failure is
reported. -/
theorem c9_retry_no_reattempt_no_abort :
    (Chain.executeChain Chain.c9state [1, 2] "retry" Chain.c9oracle).executed = [1, 2] ∧
    (Chain.executeChain Chain.c9state [1, 2] "retry" Chain.c9oracle).failedAt = none ∧
    (Chain.lookupC (Chain.executeChain Chain.c9state [1, 2] "retry"
        Chain.c9oracle).final.chainTasks 1).map Chain.CTask.status =
      some Chain.CStatus.failed := by
  refine ⟨by decide, by decide, by decide⟩

/-- Claim C9 amended: `execute_chain` only ever compares the
error_handling policy against "stop", so "retry" behaves exactly like
"continue": the failing step is never re-attempted and the chain never
falls back to stop behaviour. -/
theorem c9_amended_retry_equals_continue (s : Chain.ChainState) (ids : List Nat)
    (o : Nat → Chain.WorkOutcome) :
    Chain.executeChain s ids "retry" o = Chain.executeChain s ids "continue" o := by
  simp only [Chain.executeChain, Chain.goChain_retry_eq_continue]

/-! ## Further association list lemmas -/

theorem Assoc.keys_update {α : Type} (m : List (Nat × α)) (i : Nat) (f : α → α) :
    (Assoc.update m i f).map (fun p => p.1) = m.map (fun p => p.1) := by
  induction m with
  | nil => rfl
  | cons p rest ih =>
    by_cases h : (p.1 == i) = true
    · simp [Assoc.update, h, ih]
    · simp only [Bool.not_eq_true] at h
      simp [Assoc.update, h, ih]

theorem Assoc.find_none_key_not_mem {α : Type} (m : List (Nat × α)) (i : Nat)
    (h : Assoc.find m i = none) : i ∉ m.map (fun p => p.1) := by
  induction m with
  | nil => simp
  | cons p rest ih =>
    by_cases hk : (p.1 == i) = true
    · simp [Assoc.find, hk] at h
    · simp only [Bool.not_eq_true] at hk
      simp only [Assoc.find, hk] at h
      intro hmem
      rcases List.mem_cons.mp hmem with he | hm
      · have : (p.1 == i) = true := by simp [he]
        simp [hk] at this
      · have hb : (p.1 == i) = false := by simp [hk]
        exact ih (by simpa [Assoc.find, hb] using h) hm

theorem Assoc.find_of_mem_nodup {α : Type} (m : List (Nat × α)) (i : Nat) (v : α)
    (h : (i, v) ∈ m) (hn : (m.map (fun p => p.1)).Nodup) : Assoc.find m i = some v := by
  induction m with
  | nil => simp at h
  | cons p rest ih =>
    rcases List.mem_cons.mp h with he | hm
    · simp [← he, Assoc.find]
    · have hn' := hn
      rw [List.map_cons] at hn'
      have hn1 := (List.nodup_cons.mp hn').1
      have hn2 := (List.nodup_cons.mp hn').2
      have hkey : i ∈ rest.map (fun p => p.1) := by
        have := List.mem_map_of_mem (fun p : Nat × α => p.1) hm
        simpa using this
      have hne : (p.1 == i) = false := by
        have : p.1 ≠ i := fun he2 => hn1 (he2 ▸ hkey)
        simp [this]
      simp only [Assoc.find, hne, Bool.false_eq_true, if_false]
      exact ih hm hn2

/-! ## Core theorems -/

theorem Core.insertSorted_mem (s : Core.Sched) (i : Nat) :
    ∀ (l : List Nat) (j : Nat), j ∈ Core.insertSorted s i l ↔ j = i ∨ j ∈ l := by
  intro l
  induction l with
  | nil => intro j; simp [Core.insertSorted]
  | cons k rest ih =>
    intro j
    simp only [Core.insertSorted]
    split
    · simp [List.mem_cons]
    · simp only [List.mem_cons, ih]
      tauto

theorem Core.sortQueue_mem (s : Core.Sched) (j : Nat) :
    j ∈ Core.sortQueue s ↔ j ∈ s.queue := by
  unfold Core.sortQueue
  suffices h : ∀ l : List Nat, j ∈ l.foldr (Core.insertSorted s) [] ↔ j ∈ l from h s.queue
  intro l
  induction l with
  | nil => simp
  | cons k rest ih => simp [List.foldr_cons, Core.insertSorted_mem, ih, List.mem_cons]

theorem Core.tickLoop_mem (s : Core.Sched) (avail : Bool) :
    ∀ (order run rem rts : List Nat) (j : Nat),
      (j ∈ (Core.tickLoop s avail order run rem rts).1 → j ∈ run ∨ j ∈ order) ∧
      (j ∈ (Core.tickLoop s avail order run rem rts).2.1 → j ∈ rem ∨ j ∈ order) ∧
      (j ∈ (Core.tickLoop s avail order run rem rts).2.2 → j ∈ rts ∨ j ∈ order) := by
  intro order
  induction order with
  | nil =>
    intro run rem rts j
    refine ⟨fun h => Or.inl h, fun h => Or.inl h, fun h => Or.inl h⟩
  | cons k rest ih =>
    intro run rem rts j
    simp only [Core.tickLoop]
    split
    · obtain ⟨h1, h2, h3⟩ := ih run (rem ++ [k]) rts j
      refine ⟨fun h => ?_, fun h => ?_, fun h => ?_⟩
      · rcases h1 h with h | h
        · exact Or.inl h
        · exact Or.inr (List.mem_cons_of_mem _ h)
      · rcases h2 h with h | h
        · rcases List.mem_append.mp h with h | h
          · exact Or.inl h
          · simp at h
            exact Or.inr (h ▸ List.mem_cons_self _ _)
        · exact Or.inr (List.mem_cons_of_mem _ h)
      · rcases h3 h with h | h
        · exact Or.inl h
        · exact Or.inr (List.mem_cons_of_mem _ h)
    · split
      · obtain ⟨h1, h2, h3⟩ := ih (run ++ [k]) rem (k :: rts) j
        refine ⟨fun h => ?_, fun h => ?_, fun h => ?_⟩
        · rcases h1 h with h | h
          · rcases List.mem_append.mp h with h | h
            · exact Or.inl h
            · simp at h
              exact Or.inr (h ▸ List.mem_cons_self _ _)
          · exact Or.inr (List.mem_cons_of_mem _ h)
        · rcases h2 h with h | h
          · exact Or.inl h
          · exact Or.inr (List.mem_cons_of_mem _ h)
        · rcases h3 h with h | h
          · rcases List.mem_cons.mp h with h | h
            · exact Or.inr (h ▸ List.mem_cons_self _ _)
            · exact Or.inl h
          · exact Or.inr (List.mem_cons_of_mem _ h)
      · obtain ⟨h1, h2, h3⟩ := ih run (rem ++ [k]) rts j
        refine ⟨fun h => ?_, fun h => ?_, fun h => ?_⟩
        · rcases h1 h with h | h
          · exact Or.inl h
          · exact Or.inr (List.mem_cons_of_mem _ h)
        · rcases h2 h with h | h
          · rcases List.mem_append.mp h with h | h
            · exact Or.inl h
            · simp at h
              exact Or.inr (h ▸ List.mem_cons_self _ _)
          · exact Or.inr (List.mem_cons_of_mem _ h)
        · rcases h3 h with h | h
          · exact Or.inl h
          · exact Or.inr (List.mem_cons_of_mem _ h)

theorem Core.foldStart_queue : ∀ (l : List Nat) (st : Core.Sched),
    (l.foldl Core.startRunning st).queue = st.queue := by
  intro l
  induction l with
  | nil => intro st; rfl
  | cons i rest ih => intro st; simp [List.foldl_cons, ih, Core.startRunning]

theorem Core.foldStart_running : ∀ (l : List Nat) (st : Core.Sched),
    (l.foldl Core.startRunning st).runningTasks = st.runningTasks := by
  intro l
  induction l with
  | nil => intro st; rfl
  | cons i rest ih => intro st; simp [List.foldl_cons, ih, Core.startRunning]

theorem Core.foldStart_lookup : ∀ (l : List Nat) (st : Core.Sched) (j : Nat), j ∉ l →
    Core.lookupT (l.foldl Core.startRunning st).tasks j = Core.lookupT st.tasks j := by
  intro l
  induction l with
  | nil => intro st j hj; rfl
  | cons i rest ih =>
    intro st j hj
    have hne : j ≠ i := fun he => hj (he ▸ List.mem_cons_self _ _)
    have hrest : j ∉ rest := fun he => hj (List.mem_cons_of_mem _ he)
    rw [List.foldl_cons, ih _ j hrest]
    exact Assoc.find_update_ne st.tasks i j _ hne

theorem Core.foldStart_keys : ∀ (l : List Nat) (st : Core.Sched),
    (l.foldl Core.startRunning st).tasks.map (fun p => p.1) =
      st.tasks.map (fun p => p.1) := by
  intro l
  induction l with
  | nil => intro st; rfl
  | cons i rest ih =>
    intro st
    rw [List.foldl_cons, ih]
    exact Assoc.keys_update st.tasks i _

/-- Counterexample to claim C2: in IntelligentScheduler the heap orders
by ascending `heap_key = (priority, created_at, task_id)`, so among two
simultaneously ready, admissible tasks the one with the SMALLER priority
value starts first: with priorities 2 (task 10) and 1 (task 11), the
scheduler loop starts task 11 before task 10. -/
theorem c2_core_lower_priority_value_starts_first :
    Core.c2taskB.priority < Core.c2taskA.priority ∧
    (Core.tick Core.c2sched true).2 = [11, 10] ∧
    Core.statusOf (Core.tick Core.c2sched true).1 11 = some Core.TStatus.running := by
  refine ⟨by decide, by decide, by decide⟩

/-- Counterexample to claim C8: `add_task` performs no validation at
all.  A submission whose dependency list references the unknown id 99 is
accepted — the task is stored PENDING in the task map (it did enter the
pipeline) and no error is raised (`add_task` has no failure path; no
ValidationError exists in the scheduler sources). -/
theorem c8_unknown_dependency_accepted :
    Core.lookupT (Core.addTask (Core.initSched 10) Core.c8task).tasks 5 =
      some Core.c8task ∧
    Core.c8task.status = Core.TStatus.pending ∧
    99 ∈ Core.c8task.dependencies ∧
    Core.lookupT (Core.initSched 10).tasks 99 = none ∧
    (Core.addTask (Core.initSched 10) Core.c8task).queue = [] := by
  refine ⟨by decide, by decide, by decide, by decide, by decide⟩

/-- Claim C8 amended: a submission referencing an unknown dependency id
is accepted without any error: the task is stored (status PENDING as
submitted) and, the unknown dependency counting as unsatisfied, it is
not pushed onto the ready queue — it waits in the task map. -/
theorem c8_amended_unknown_dependency_not_queued
    (s : Core.Sched) (t : Core.Task) (d : Nat)
    (hd : d ∈ t.dependencies) (hunk : Core.lookupT s.tasks d = none)
    (hne : d ≠ t.taskId) (hfresh : Core.lookupT s.tasks t.taskId = none) :
    Core.lookupT (Core.addTask s t).tasks t.taskId = some t ∧
    (Core.addTask s t).queue = s.queue := by
  have hself : Core.lookupT (Core.insertT s.tasks t.taskId t) t.taskId = some t := by
    have h1 := Assoc.find_append_none s.tasks [(t.taskId, t)] t.taskId hfresh
    have h2 : Assoc.find [(t.taskId, t)] t.taskId = some t := by simp [Assoc.find]
    exact h1.trans h2
  have hdnone : Core.lookupT (Core.insertT s.tasks t.taskId t) d = none := by
    have h1 := Assoc.find_append_none s.tasks [(t.taskId, t)] d hunk
    have h2 : Assoc.find [(t.taskId, t)] d = none := by
      have : (t.taskId == d) = false := by
        simp
        omega
      simp [Assoc.find, this]
    exact h1.trans h2
  have hsat : Core.depsSatisfied { s with tasks := Core.insertT s.tasks t.taskId t }
      t.taskId = false := by
    refine Bool.eq_false_iff.mpr ?_
    intro hall
    unfold Core.depsSatisfied at hall
    dsimp only at hall
    rw [hself] at hall
    dsimp only at hall
    rw [List.all_eq_true] at hall
    have hone := hall d hd
    rw [hdnone] at hone
    simp at hone
  constructor
  · simp only [Core.addTask, hsat, Bool.false_eq_true, if_false]
    exact hself
  · simp only [Core.addTask, hsat, Bool.false_eq_true, if_false]

/-- Witness for the amended C8 at the concrete malformed submission. -/
theorem c8_amended_witness :
    Core.lookupT (Core.addTask (Core.initSched 10) Core.c8task).tasks
      Core.c8task.taskId = some Core.c8task ∧
    (Core.addTask (Core.initSched 10) Core.c8task).queue = (Core.initSched 10).queue :=
  c8_amended_unknown_dependency_not_queued (Core.initSched 10) Core.c8task 99
    (by decide) (by decide) (by decide) (by decide)

/-- Counterexample to claim C6: task 7 (no dependencies) is added and
thereby queued; `cancel_task 7` succeeds and sets CANCELLED, but the
task stays in the ready queue, and the next scheduler-loop tick pops and
executes it: its work item IS invoked after the successful cancel. -/
theorem c6_cancelled_queued_task_still_executed :
    (Core.cancelTask Core.c6sched 7).1 = true ∧
    Core.statusOf (Core.cancelTask Core.c6sched 7).2 7 = some Core.TStatus.cancelled ∧
    7 ∈ (Core.cancelTask Core.c6sched 7).2.queue ∧
    (Core.tick (Core.cancelTask Core.c6sched 7).2 true).2 = [7] ∧
    Core.statusOf (Core.tick (Core.cancelTask Core.c6sched 7).2 true).1 7 =
      some Core.TStatus.running := by
  refine ⟨by decide, by decide, by decide, by decide, by decide⟩

theorem Core.lookupT_update_ne (m : List (Nat × Core.Task)) (i j : Nat)
    (f : Core.Task → Core.Task) (h : j ≠ i) :
    Core.lookupT (Core.updateT m i f) j = Core.lookupT m j :=
  Assoc.find_update_ne m i j f h

theorem Core.lookupT_update_self (m : List (Nat × Core.Task)) (i : Nat)
    (f : Core.Task → Core.Task) :
    Core.lookupT (Core.updateT m i f) i = (Core.lookupT m i).map f :=
  Assoc.find_update_self m i f

theorem Core.keysT_update (m : List (Nat × Core.Task)) (i : Nat)
    (f : Core.Task → Core.Task) :
    (Core.updateT m i f).map (fun p => p.1) = m.map (fun p => p.1) :=
  Assoc.keys_update m i f

theorem Core.addTask_tasks (s : Core.Sched) (t : Core.Task) :
    (Core.addTask s t).tasks = Core.insertT s.tasks t.taskId t := by
  simp only [Core.addTask]
  split <;> rfl

theorem Core.addTask_running (s : Core.Sched) (t : Core.Task) :
    (Core.addTask s t).runningTasks = s.runningTasks := by
  simp only [Core.addTask]
  split <;> rfl

theorem Core.addTask_queue_mem (s : Core.Sched) (t : Core.Task) :
    ∀ j ∈ (Core.addTask s t).queue, j ∈ s.queue ∨ j = t.taskId := by
  simp only [Core.addTask]
  split
  · intro j hj
    rcases List.mem_append.mp hj with h | h
    · exact Or.inl h
    · simp at h
      exact Or.inr h
  · intro j hj
    exact Or.inl hj

theorem Core.cancelled_dormant_step (s s2 : Core.Sched) (i : Nat)
    (hst : Core.statusOf s i = some Core.TStatus.cancelled)
    (hq : i ∉ s.queue) (hr : i ∉ s.runningTasks)
    (hkn : (s.tasks.map (fun p => p.1)).Nodup)
    (hstep : Core.Step s s2) :
    Core.statusOf s2 i = some Core.TStatus.cancelled ∧ i ∉ s2.queue ∧
      i ∉ s2.runningTasks ∧ (s2.tasks.map (fun p => p.1)).Nodup := by
  obtain ⟨t0, hl0, hs0⟩ : ∃ t0, Core.lookupT s.tasks i = some t0 ∧
      t0.status = Core.TStatus.cancelled := by
    unfold Core.statusOf at hst
    cases hl : Core.lookupT s.tasks i with
    | none => rw [hl] at hst; simp at hst
    | some u => rw [hl] at hst; simp at hst; exact ⟨u, rfl, hst⟩
  cases hstep with
  | add t hfresh hstq =>
    have hne : t.taskId ≠ i := by
      intro he
      rw [he, hl0] at hfresh
      simp at hfresh
    have hkeys : ((Core.insertT s.tasks t.taskId t).map (fun p => p.1)).Nodup := by
      have hnm := Assoc.find_none_key_not_mem s.tasks t.taskId hfresh
      simp only [Core.insertT, List.map_append, List.map_cons, List.map_nil]
      rw [List.nodup_append]
      refine ⟨hkn, by simp, ?_⟩
      intro a ha hb
      simp at hb
      exact hnm (hb ▸ ha)
    have hlook : Core.lookupT (Core.insertT s.tasks t.taskId t) i = some t0 :=
      Assoc.find_append_some s.tasks [(t.taskId, t)] i t0 hl0
    refine ⟨?_, ?_, ?_, ?_⟩
    · unfold Core.statusOf
      rw [Core.addTask_tasks, hlook]
      simp [hs0]
    · intro hmem
      rcases Core.addTask_queue_mem s t i hmem with h | h
      · exact hq h
      · exact hne h.symm
    · rw [Core.addTask_running]
      exact hr
    · rw [Core.addTask_tasks]
      exact hkeys
  | tick ok =>
    have hnotorder : i ∉ Core.sortQueue s := fun h => hq ((Core.sortQueue_mem s i).mp h)
    obtain ⟨hm1, hm2, hm3⟩ := Core.tickLoop_mem s
      (ok && decide (s.currentTasks < s.maxConcurrent)) (Core.sortQueue s) [] []
      s.runningTasks i
    have hnotrun : i ∉ (Core.tickLoop s (ok && decide (s.currentTasks < s.maxConcurrent))
        (Core.sortQueue s) [] [] s.runningTasks).1 := by
      intro h
      rcases hm1 h with h | h
      · simp at h
      · exact hnotorder h
    refine ⟨?_, ?_, ?_, ?_⟩
    · unfold Core.statusOf Core.tick
      dsimp only
      rw [Core.foldStart_lookup _ _ i hnotrun]
      dsimp only
      rw [hl0]
      simp [hs0]
    · unfold Core.tick
      dsimp only
      rw [Core.foldStart_queue]
      intro h
      dsimp only at h
      rcases hm2 h with h | h
      · simp at h
      · exact hnotorder h
    · unfold Core.tick
      dsimp only
      rw [Core.foldStart_running]
      intro h
      dsimp only at h
      rcases hm3 h with h | h
      · exact hr h
      · exact hnotorder h
    · unfold Core.tick
      dsimp only
      rw [Core.foldStart_keys]
      exact hkn
  | finish j o hrun =>
    have hne : j ≠ i := fun he => hr (he ▸ hrun)
    have hnei : i ≠ j := fun he => hne he.symm
    cases o with
    | success =>
      have hl2 : Core.lookupT (Core.updateT s.tasks j
          (fun t => { t with status := Core.TStatus.completed })) i = some t0 := by
        rw [Core.lookupT_update_ne s.tasks j i _ hnei]
        exact hl0
      have hkeys2 : ((Core.updateT s.tasks j
          (fun t => { t with status := Core.TStatus.completed })).map
            (fun p => p.1)).Nodup := by
        rw [Core.keysT_update]
        exact hkn
      refine ⟨?_, ?_, ?_, ?_⟩
      · unfold Core.statusOf Core.finishTask Core.checkDependentTasks
        dsimp only
        rw [hl2]
        simp [hs0]
      · unfold Core.finishTask Core.checkDependentTasks
        dsimp only
        intro hmem
        rcases List.mem_append.mp hmem with h | h
        · exact hq h
        · rcases List.mem_map.mp h with ⟨p, hp, hpi⟩
          have hfp := List.of_mem_filter hp
          have hpm := List.mem_of_mem_filter hp
          have hfind : Core.lookupT (Core.updateT s.tasks j
              (fun t => { t with status := Core.TStatus.completed })) i = some p.2 :=
            Assoc.find_of_mem_nodup _ i p.2 (by rw [← hpi]; exact hpm) hkeys2
          rw [hl2] at hfind
          have hps : p.2.status = Core.TStatus.pending := by
            simp only [Bool.and_eq_true, beq_iff_eq] at hfp
            exact hfp.1.1
          rw [Option.some_inj.mp hfind] at hs0
          rw [hps] at hs0
          simp at hs0
      · unfold Core.finishTask Core.checkDependentTasks
        dsimp only
        intro hmem
        exact hr (List.mem_of_mem_filter hmem)
      · unfold Core.finishTask Core.checkDependentTasks
        dsimp only
        exact hkeys2
    | failure =>
      have hl2 : Core.lookupT (Core.updateT s.tasks j
          (fun t => { t with status := Core.TStatus.failed })) i = some t0 := by
        rw [Core.lookupT_update_ne s.tasks j i _ hnei]
        exact hl0
      have hkeys2 : ((Core.updateT s.tasks j
          (fun t => { t with status := Core.TStatus.failed })).map
            (fun p => p.1)).Nodup := by
        rw [Core.keysT_update]
        exact hkn
      refine ⟨?_, ?_, ?_, ?_⟩
      · unfold Core.statusOf Core.finishTask Core.checkDependentTasks
        dsimp only
        rw [hl2]
        simp [hs0]
      · unfold Core.finishTask Core.checkDependentTasks
        dsimp only
        intro hmem
        rcases List.mem_append.mp hmem with h | h
        · exact hq h
        · rcases List.mem_map.mp h with ⟨p, hp, hpi⟩
          have hfp := List.of_mem_filter hp
          have hpm := List.mem_of_mem_filter hp
          have hfind : Core.lookupT (Core.updateT s.tasks j
              (fun t => { t with status := Core.TStatus.failed })) i = some p.2 :=
            Assoc.find_of_mem_nodup _ i p.2 (by rw [← hpi]; exact hpm) hkeys2
          rw [hl2] at hfind
          have hps : p.2.status = Core.TStatus.pending := by
            simp only [Bool.and_eq_true, beq_iff_eq] at hfp
            exact hfp.1.1
          rw [Option.some_inj.mp hfind] at hs0
          rw [hps] at hs0
          simp at hs0
      · unfold Core.finishTask Core.checkDependentTasks
        dsimp only
        intro hmem
        exact hr (List.mem_of_mem_filter hmem)
      · unfold Core.finishTask Core.checkDependentTasks
        dsimp only
        exact hkeys2
  | cancel j =>
    by_cases hji : j = i
    · subst hji
      unfold Core.cancelTask
      rw [hl0]
      dsimp only
      have hb : (t0.status == Core.TStatus.pending) = false := by
        rw [hs0]
        decide
      rw [hb]
      simp only [Bool.false_eq_true, if_false]
      refine ⟨?_, hq, hr, hkn⟩
      unfold Core.statusOf
      rw [hl0]
      simp [hs0]
    · have hsame : Core.statusOf s i = some Core.TStatus.cancelled := by
        unfold Core.statusOf
        rw [hl0]
        simp [hs0]
      unfold Core.cancelTask
      cases hlj : Core.lookupT s.tasks j with
      | none => exact ⟨hsame, hq, hr, hkn⟩
      | some tj =>
        dsimp only
        by_cases hpj : (tj.status == Core.TStatus.pending) = true
        · rw [hpj]
          simp only [if_true]
          refine ⟨?_, hq, hr, ?_⟩
          · unfold Core.statusOf
            dsimp only
            rw [Core.lookupT_update_ne s.tasks j i _ (fun he => hji he.symm)]
            rw [hl0]
            simp [hs0]
          · dsimp only
            rw [Core.keysT_update]
            exact hkn
        · simp only [Bool.not_eq_true] at hpj
          rw [hpj]
          simp only [Bool.false_eq_true, if_false]
          exact ⟨hsame, hq, hr, hkn⟩

theorem Core.cancelled_dormant_reach (s : Core.Sched) (i : Nat)
    (hst : Core.statusOf s i = some Core.TStatus.cancelled)
    (hq : i ∉ s.queue) (hr : i ∉ s.runningTasks)
    (hkn : (s.tasks.map (fun p => p.1)).Nodup) :
    ∀ s2, Core.ReachFrom s s2 →
      Core.statusOf s2 i = some Core.TStatus.cancelled ∧ i ∉ s2.queue ∧
        i ∉ s2.runningTasks ∧ (s2.tasks.map (fun p => p.1)).Nodup := by
  intro s2 hreach
  induction hreach with
  | refl => exact ⟨hst, hq, hr, hkn⟩
  | step hr2 hstep ih =>
    obtain ⟨h1, h2, h3, h4⟩ := ih
    exact Core.cancelled_dormant_step _ _ i h1 h2 h3 h4 hstep

/-- Claim C6 amended: `cancel_task` on a PENDING task does return true
and set CANCELLED; `_check_dependent_tasks` only enqueues tasks whose
status is PENDING, so a cancelled task is never newly promoted; hence a
cancelled task that is not in the ready queue (and not running) stays
CANCELLED forever and is never executed.  But — per the counterexample —
a task that was already in the ready queue when cancelled is still
popped and executed by the scheduler loop. -/
theorem c6_amended_cancel_pending_semantics :
    (∀ (s : Core.Sched) (i : Nat) (t : Core.Task),
      Core.lookupT s.tasks i = some t → t.status = Core.TStatus.pending →
      (Core.cancelTask s i).1 = true ∧
      Core.statusOf (Core.cancelTask s i).2 i = some Core.TStatus.cancelled) ∧
    (∀ (s : Core.Sched) (cid j : Nat), j ∈ (Core.checkDependentTasks s cid).queue →
      j ∈ s.queue ∨ ∃ p ∈ s.tasks, p.1 = j ∧ p.2.status = Core.TStatus.pending) ∧
    (∀ (s : Core.Sched) (i : Nat),
      Core.statusOf s i = some Core.TStatus.cancelled → i ∉ s.queue →
      i ∉ s.runningTasks → (s.tasks.map (fun p => p.1)).Nodup →
      ∀ s2, Core.ReachFrom s s2 →
        Core.statusOf s2 i = some Core.TStatus.cancelled ∧ i ∉ s2.runningTasks) := by
  refine ⟨?_, ?_, ?_⟩
  · intro s i t hl hp
    unfold Core.cancelTask
    rw [hl]
    dsimp only
    have hb : (t.status == Core.TStatus.pending) = true := by rw [hp]; decide
    rw [hb]
    simp only [if_true]
    refine ⟨trivial, ?_⟩
    unfold Core.statusOf
    dsimp only
    rw [Core.lookupT_update_self]
    rw [hl]
    rfl
  · intro s cid j hmem
    unfold Core.checkDependentTasks at hmem
    rcases List.mem_append.mp hmem with h | h
    · exact Or.inl h
    · right
      rcases List.mem_map.mp h with ⟨p, hp, hpi⟩
      refine ⟨p, List.mem_of_mem_filter hp, hpi, ?_⟩
      have hfp := List.of_mem_filter hp
      simp at hfp
      have := hfp.1.1
      simpa using this
  · intro s i hst hq hr hkn s2 hreach
    obtain ⟨h1, _, h3, _⟩ := Core.cancelled_dormant_reach s i hst hq hr hkn s2 hreach
    exact ⟨h1, h3⟩

/-- Witness for the amended C6: task 5 (blocked on the unknown
dependency 99, hence never queued) is cancelled; after one further
scheduler tick it is still CANCELLED and not running. -/
theorem c6_amended_witness :
    ((Core.cancelTask (Core.addTask (Core.initSched 10) Core.c8task) 5).1 = true ∧
      Core.statusOf (Core.cancelTask (Core.addTask (Core.initSched 10) Core.c8task) 5).2 5 =
        some Core.TStatus.cancelled) ∧
    (Core.statusOf (Core.tick (Core.cancelTask (Core.addTask (Core.initSched 10)
        Core.c8task) 5).2 true).1 5 = some Core.TStatus.cancelled ∧
      5 ∉ (Core.tick (Core.cancelTask (Core.addTask (Core.initSched 10)
        Core.c8task) 5).2 true).1.runningTasks) := by
  constructor
  · exact c6_amended_cancel_pending_semantics.1 (Core.addTask (Core.initSched 10) Core.c8task)
      5 Core.c8task (by decide) (by decide)
  · exact c6_amended_cancel_pending_semantics.2.2
      (Core.cancelTask (Core.addTask (Core.initSched 10) Core.c8task) 5).2 5
      (by decide) (by decide) (by decide) (by decide) _
      (Core.ReachFrom.step Core.ReachFrom.refl (Core.Step.tick true))

/-! ## Engine theorems: basic lemmas -/

theorem Engine.lookupE_update_ne (m : List (Nat × Engine.Task)) (i j : Nat)
    (f : Engine.Task → Engine.Task) (h : j ≠ i) :
    Engine.lookupE (Engine.updateE m i f) j = Engine.lookupE m j :=
  Assoc.find_update_ne m i j f h

theorem Engine.lookupE_update_self (m : List (Nat × Engine.Task)) (i : Nat)
    (f : Engine.Task → Engine.Task) :
    Engine.lookupE (Engine.updateE m i f) i = (Engine.lookupE m i).map f :=
  Assoc.find_update_self m i f

theorem Engine.lookupE_insert_self (m : List (Nat × Engine.Task)) (i : Nat)
    (t : Engine.Task) (h : Engine.lookupE m i = none) :
    Engine.lookupE (Engine.insertE m i t) i = some t := by
  have h1 := Assoc.find_append_none m [(i, t)] i h
  have h2 : Assoc.find [(i, t)] i = some t := by simp [Assoc.find]
  exact h1.trans h2

theorem Engine.lookupE_insert_of_some (m : List (Nat × Engine.Task)) (i j : Nat)
    (t u : Engine.Task) (h : Engine.lookupE m j = some u) :
    Engine.lookupE (Engine.insertE m i t) j = some u :=
  Assoc.find_append_some m [(i, t)] j u h

theorem Engine.lookupE_insert_ne (m : List (Nat × Engine.Task)) (i j : Nat)
    (t : Engine.Task) (hne : j ≠ i) :
    Engine.lookupE (Engine.insertE m i t) j = Engine.lookupE m j := by
  cases h : Engine.lookupE m j with
  | some u => exact Engine.lookupE_insert_of_some m i j t u h
  | none =>
    have h1 := Assoc.find_append_none m [(i, t)] j h
    have h2 : Assoc.find [(i, t)] j = none := by
      have : (i == j) = false := by simp; omega
      simp [Assoc.find, this]
    exact h1.trans h2

theorem Engine.mem_insertId (l : List Nat) (i j : Nat) :
    j ∈ Engine.insertId l i ↔ j ∈ l ∨ j = i := by
  unfold Engine.insertId
  split
  · constructor
    · exact fun h => Or.inl h
    · intro h
      rcases h with h | h
      · exact h
      · subst h
        assumption
  · simp [List.mem_append]

theorem Engine.mem_eraseId (l : List Nat) (i j : Nat) :
    j ∈ Engine.eraseId l i ↔ j ∈ l ∧ j ≠ i := by
  unfold Engine.eraseId
  rw [List.mem_filter]
  constructor
  · intro ⟨h1, h2⟩
    refine ⟨h1, ?_⟩
    intro he
    subst he
    simp at h2
  · intro ⟨h1, h2⟩
    refine ⟨h1, ?_⟩
    simp [h2]

theorem Engine.eraseFirst_sub : ∀ (l : List Nat) (x j : Nat),
    j ∈ Engine.eraseFirst l x → j ∈ l := by
  intro l
  induction l with
  | nil => intro x j h; simp [Engine.eraseFirst] at h
  | cons k rest ih =>
    intro x j h
    unfold Engine.eraseFirst at h
    by_cases hk : (k == x) = true
    · rw [hk] at h
      simp only [if_true] at h
      exact List.mem_cons_of_mem _ h
    · simp only [Bool.not_eq_true] at hk
      rw [hk] at h
      simp only [Bool.false_eq_true, if_false] at h
      rcases List.mem_cons.mp h with h | h
      · exact h ▸ List.mem_cons_self _ _
      · exact List.mem_cons_of_mem _ (ih x j h)

theorem Engine.minFrom_mem (s : Engine.Sched) : ∀ (l : List Nat) (best : Nat),
    Engine.minFrom s best l = best ∨ Engine.minFrom s best l ∈ l := by
  intro l
  induction l with
  | nil => intro best; exact Or.inl rfl
  | cons k rest ih =>
    intro best
    unfold Engine.minFrom
    split
    · rcases ih k with h | h
      · exact Or.inr (by rw [h]; exact List.mem_cons_self _ _)
      · exact Or.inr (List.mem_cons_of_mem _ h)
    · rcases ih best with h | h
      · exact Or.inl h
      · exact Or.inr (List.mem_cons_of_mem _ h)

theorem Engine.popMin_mem (s : Engine.Sched) (m : Nat) (rest : List Nat)
    (h : Engine.popMin s = some (m, rest)) :
    m ∈ s.queue ∧ (∀ j ∈ rest, j ∈ s.queue) := by
  unfold Engine.popMin at h
  cases hq : s.queue with
  | nil => rw [hq] at h; simp at h
  | cons k tail =>
    rw [hq] at h
    simp only [Option.some_inj] at h
    have hm : m = Engine.minFrom s k tail := by
      have := congrArg Prod.fst h.symm
      simpa using this
    have hrest : rest = Engine.eraseFirst (k :: tail) m := by
      have := congrArg Prod.snd h.symm
      simp at this
      rw [this, hm]
    constructor
    · rw [hm]
      rcases Engine.minFrom_mem s tail k with h2 | h2
      · rw [h2]
        exact List.mem_cons_self _ _
      · exact List.mem_cons_of_mem _ h2
    · intro j hj
      rw [hrest] at hj
      exact Engine.eraseFirst_sub _ m j hj

/-! ## Engine theorems: claim C3 (cycle handling) -/

theorem Engine.avoid_depsMet (S : List Nat) (s : Engine.Sched) (x : Nat)
    (t : Engine.Task) (ha : Engine.Avoid S s) (hx : x ∈ S)
    (hl : Engine.lookupE s.tasks x = some t) : Engine.depsMet s t = false := by
  obtain ⟨hC, _, _, hD⟩ := ha
  obtain ⟨d, hd, hdS⟩ := hD x hx t hl
  refine Bool.eq_false_iff.mpr ?_
  intro hall
  unfold Engine.depsMet at hall
  rw [List.all_eq_true] at hall
  have h1 := hall d hd
  unfold Engine.depDoneE at h1
  rw [Bool.and_eq_true] at h1
  have h2 := h1.1
  rw [decide_eq_true_eq] at h2
  exact hC d hdS h2

theorem Engine.avoid_update (S : List Nat) (s : Engine.Sched) (y : Nat)
    (f : Engine.Task → Engine.Task)
    (hf : ∀ u, (f u).dependencies = u.dependencies)
    (ha : Engine.Avoid S s) :
    Engine.Avoid S { s with tasks := Engine.updateE s.tasks y f } := by
  obtain ⟨hC, hR, hQ, hD⟩ := ha
  refine ⟨hC, hR, hQ, ?_⟩
  intro x hx t hl
  by_cases hxy : x = y
  · subst hxy
    rw [Engine.lookupE_update_self] at hl
    cases h0 : Engine.lookupE s.tasks x with
    | none => rw [h0] at hl; simp at hl
    | some u =>
      rw [h0] at hl
      simp only [Option.map_some'] at hl
      obtain ⟨d, hd, hdS⟩ := hD x hx u h0
      refine ⟨d, ?_, hdS⟩
      rw [← Option.some_inj.mp hl, hf u]
      exact hd
  · rw [Engine.lookupE_update_ne s.tasks y x f hxy] at hl
    exact hD x hx t hl

theorem Engine.avoid_tryStart (S : List Nat) (s : Engine.Sched)
    (ha : Engine.Avoid S s) : Engine.Avoid S (Engine.tryStartNext s) := by
  unfold Engine.tryStartNext
  split
  · exact ha
  · cases hp : Engine.popMin s with
    | none => exact ha
    | some pr =>
      obtain ⟨m, rest⟩ := pr
      obtain ⟨hmq, hrq⟩ := Engine.popMin_mem s m rest hp
      obtain ⟨hC, hR, hQ, hD⟩ := ha
      have hmS : m ∉ S := fun h => hQ m h hmq
      dsimp only
      split
      · refine ⟨hC, hR, ?_, hD⟩
        intro x hx hmem
        rcases List.mem_append.mp hmem with h | h
        · exact hQ x hx (hrq x h)
        · simp at h
          exact hmS (h ▸ hx)
      · have ha2 : Engine.Avoid S { s with queue := rest } := by
          refine ⟨hC, hR, ?_, hD⟩
          intro x hx hmem
          exact hQ x hx (hrq x hmem)
        obtain ⟨hC3, hR3, hQ3, hD3⟩ := Engine.avoid_update S { s with queue := rest } m
          (fun t => { t with status := Engine.EStatus.running }) (fun u => rfl) ha2
        refine ⟨hC3, ?_, hQ3, hD3⟩
        intro x hx hmem
        have hmem2 : x ∈ Engine.insertId s.runningIds m := hmem
        rw [Engine.mem_insertId] at hmem2
        rcases hmem2 with h | h
        · exact hR3 x hx h
        · exact hmS (h ▸ hx)

theorem Engine.avoid_queueTask (S : List Nat) (s : Engine.Sched) (i : Nat)
    (hi : i ∉ S) (ha : Engine.Avoid S s) : Engine.Avoid S (Engine.queueTask s i) := by
  unfold Engine.queueTask
  have ha1 := Engine.avoid_update S s i
    (fun t => { t with status := Engine.EStatus.queued }) (fun u => rfl) ha
  obtain ⟨hC1, hR1, hQ1, hD1⟩ := ha1
  apply Engine.avoid_tryStart
  refine ⟨hC1, hR1, ?_, hD1⟩
  intro x hx hmem
  rcases List.mem_append.mp hmem with h | h
  · exact hQ1 x hx h
  · simp at h
    exact hi (h ▸ hx)

theorem Engine.avoid_evaluate (S : List Nat) (s : Engine.Sched) (i : Nat)
    (ha : Engine.Avoid S s) : Engine.Avoid S (Engine.evaluateTask s i) := by
  unfold Engine.evaluateTask
  cases hl : Engine.lookupE s.tasks i with
  | none => exact ha
  | some t =>
    dsimp only
    by_cases hdm : Engine.depsMet s t = true
    · rw [hdm]
      simp only [if_true]
      have hiS : i ∉ S := by
        intro hiS
        rw [Engine.avoid_depsMet S s i t ha hiS hl] at hdm
        simp at hdm
      exact Engine.avoid_queueTask S s i hiS ha
    · simp only [Bool.not_eq_true] at hdm
      rw [hdm]
      simp only [Bool.false_eq_true, if_false]
      exact ha

theorem Engine.avoid_fold (S : List Nat) : ∀ (js : List Nat) (s : Engine.Sched),
    Engine.Avoid S s → Engine.Avoid S (js.foldl Engine.evaluateTask s) := by
  intro js
  induction js with
  | nil => intro s ha; exact ha
  | cons j rest ih =>
    intro s ha
    rw [List.foldl_cons]
    exact ih _ (Engine.avoid_evaluate S s j ha)

theorem Engine.avoid_onComplete (S : List Nat) (s : Engine.Sched) (i : Nat)
    (hi : i ∉ S) (ha : Engine.Avoid S s) : Engine.Avoid S (Engine.onTaskComplete s i) := by
  obtain ⟨hC, hR, hQ, hD⟩ := ha
  unfold Engine.onTaskComplete
  have ha1 : Engine.Avoid S { s with runningIds := Engine.eraseId s.runningIds i } := by
    refine ⟨hC, ?_, hQ, hD⟩
    intro x hx hmem
    exact hR x hx ((Engine.mem_eraseId _ i x).mp hmem).1
  dsimp only
  split
  · apply Engine.avoid_fold
    obtain ⟨hC1, hR1, hQ1, hD1⟩ := ha1
    refine ⟨?_, hR1, hQ1, hD1⟩
    intro x hx hmem
    rw [Engine.mem_insertId] at hmem
    rcases hmem with h | h
    · exact hC1 x hx h
    · exact hi (h ▸ hx)
  · exact ha1

theorem Engine.avoid_step (S : List Nat) (s s2 : Engine.Sched)
    (h : Engine.StepCyc S s s2) (ha : Engine.Avoid S s) : Engine.Avoid S s2 := by
  cases h with
  | submit t hfresh hst hrc hcyc =>
    unfold Engine.submitTask
    dsimp only
    apply Engine.avoid_evaluate
    obtain ⟨hC, hR, hQ, hD⟩ := ha
    refine ⟨hC, hR, hQ, ?_⟩
    intro x hx u hl
    by_cases hxe : x = t.id
    · subst hxe
      rw [Engine.lookupE_insert_self s.tasks t.id t hfresh] at hl
      obtain ⟨d, hd, hdS⟩ := hcyc hx
      exact ⟨d, (Option.some_inj.mp hl) ▸ hd, hdS⟩
    · rw [Engine.lookupE_insert_ne s.tasks t.id x t hxe] at hl
      exact hD x hx u hl
  | finish i o hrun hto =>
    have hi : i ∉ S := fun h => ha.2.1 i h hrun
    cases o with
    | success =>
      unfold Engine.execFinish
      dsimp only
      exact Engine.avoid_onComplete S _ i hi
        (Engine.avoid_update S s i
          (fun t => { t with status := Engine.EStatus.completed }) (fun u => rfl) ha)
    | timeout =>
      unfold Engine.execFinish
      dsimp only
      exact Engine.avoid_onComplete S _ i hi
        (Engine.avoid_update S s i
          (fun t => { t with status := Engine.EStatus.timeout }) (fun u => rfl) ha)
    | error =>
      unfold Engine.execFinish
      dsimp only
      cases hl : Engine.lookupE s.tasks i with
      | none => exact Engine.avoid_onComplete S s i hi ha
      | some t =>
        dsimp only
        split
        · apply Engine.avoid_onComplete S _ i hi
          apply Engine.avoid_evaluate
          obtain ⟨hC1, hR1, hQ1, hD1⟩ := Engine.avoid_update S s i
            (fun u => { u with retryCount := u.retryCount + 1, status := Engine.EStatus.pending })
            (fun u => rfl) ha
          exact ⟨hC1, hR1, hQ1, hD1⟩
        · exact Engine.avoid_onComplete S _ i hi
            (Engine.avoid_update S s i
              (fun t => { t with status := Engine.EStatus.failed }) (fun u => rfl) ha)
  | cancel i =>
    unfold Engine.cancelTaskE
    split
    · dsimp only
      have hi : i ∉ S := fun h => ha.2.1 i h (by assumption)
      split
      · exact Engine.avoid_onComplete S _ i hi
          (Engine.avoid_update S s i
            (fun t => { t with status := Engine.EStatus.cancelled }) (fun u => rfl) ha)
      · exact Engine.avoid_onComplete S s i hi ha
    · split
      · dsimp only
        exact Engine.avoid_update S s i
          (fun t => { t with status := Engine.EStatus.cancelled }) (fun u => rfl) ha
      · exact ha

/-- Counterexample to claim C3: `submit_task` performs no cycle
detection and has no failure path (no DependencyCycleError exists): a
task that depends on itself is accepted and IS present in the pending
set right after submission. -/
theorem c3_cyclic_submission_enters_pending :
    (Engine.submitTask (Engine.initSched 1) Engine.c3task).pendingIds = [0] ∧
    Engine.lookupE (Engine.submitTask (Engine.initSched 1) Engine.c3task).tasks 0 =
      some Engine.c3task ∧
    0 ∈ Engine.c3task.dependencies := by
  refine ⟨by decide, by decide, by decide⟩

/-- Claim C3 amended: no submission is rejected (there is no cycle
detection and no DependencyCycleError); instead, a set `S` of ids that
only ever gets submitted with a dependency inside `S` (in particular any
dependency cycle, e.g. a self-loop) is silently starved: in every
reachable state none of its members is ever queued, running or
completed — the scheduler deadlocks silently on them. -/
theorem c3_amended_cyclic_tasks_never_scheduled (S : List Nat) (s : Engine.Sched)
    (h : Engine.ReachCyc S s) :
    ∀ x ∈ S, x ∉ s.queue ∧ x ∉ s.runningIds ∧ x ∉ s.completedIds := by
  have hav : Engine.Avoid S s := by
    induction h with
    | init c =>
      refine ⟨?_, ?_, ?_, ?_⟩
      · intro x hx hmem
        simp [Engine.initSched] at hmem
      · intro x hx hmem
        simp [Engine.initSched] at hmem
      · intro x hx hmem
        simp [Engine.initSched] at hmem
      · intro x hx t hl
        simp [Engine.initSched, Engine.lookupE, Assoc.find] at hl
    | step hr hstep ih => exact Engine.avoid_step S _ _ hstep ih
  obtain ⟨hC, hR, hQ, hD⟩ := hav
  exact fun x hx => ⟨hQ x hx, hR x hx, hC x hx⟩

/-- Witness for the amended C3: submitting the self-dependent task 0
into a fresh scheduler leaves it unqueued, not running, not completed. -/
theorem c3_amended_witness :
    0 ∉ (Engine.submitTask (Engine.initSched 1) Engine.c3task).queue ∧
    0 ∉ (Engine.submitTask (Engine.initSched 1) Engine.c3task).runningIds ∧
    0 ∉ (Engine.submitTask (Engine.initSched 1) Engine.c3task).completedIds :=
  c3_amended_cyclic_tasks_never_scheduled [0]
    (Engine.submitTask (Engine.initSched 1) Engine.c3task)
    (Engine.ReachCyc.step (Engine.ReachCyc.init 1)
      (Engine.StepCyc.submit Engine.c3task (by decide) rfl rfl
        (fun _ => ⟨0, by decide, by decide⟩)))
    0 (by decide)

/-! ## Engine theorems: claim C4 (timeout vs retry) -/

theorem Engine.depDone_false (s : Engine.Sched) (i : Nat)
    (h : ∀ u, Engine.lookupE s.tasks i = some u → u.status ≠ Engine.EStatus.completed) :
    Engine.depDoneE s i = false := by
  unfold Engine.depDoneE
  cases hl : Engine.lookupE s.tasks i with
  | none => simp
  | some u =>
    have hb : (u.status == Engine.EStatus.completed) = false := by
      have := h u hl
      simp [this]
    simp [hb]

theorem Engine.depsMet_false_of_dep (s : Engine.Sched) (t : Engine.Task) (d : Nat)
    (hd : d ∈ t.dependencies) (hdd : Engine.depDoneE s d = false) :
    Engine.depsMet s t = false := by
  refine Bool.eq_false_iff.mpr ?_
  intro hall
  unfold Engine.depsMet at hall
  rw [List.all_eq_true] at hall
  have := hall d hd
  rw [hdd] at this
  simp at this

theorem Engine.foldl_evaluate_id : ∀ (js : List Nat) (s : Engine.Sched),
    (∀ j ∈ js, Engine.evaluateTask s j = s) → js.foldl Engine.evaluateTask s = s := by
  intro js
  induction js with
  | nil => intro s h; rfl
  | cons j rest ih =>
    intro s h
    rw [List.foldl_cons, h j (List.mem_cons_self _ _)]
    exact ih s (fun k hk => h k (List.mem_cons_of_mem _ hk))

theorem Engine.checkDeps_nondone (s : Engine.Sched) (cid : Nat)
    (h : Engine.depDoneE s cid = false) : Engine.checkDependentTasks s cid = s := by
  unfold Engine.checkDependentTasks
  apply Engine.foldl_evaluate_id
  intro j hj
  have hfp := List.of_mem_filter hj
  unfold Engine.evaluateTask
  cases hl : Engine.lookupE s.tasks j with
  | none => rfl
  | some tj =>
    dsimp only
    have hcd : cid ∈ tj.dependencies := by
      rw [hl] at hfp
      exact List.mem_of_elem_eq_true hfp
    rw [Engine.depsMet_false_of_dep s tj cid hcd h]
    simp

theorem Engine.onComplete_tasks (s : Engine.Sched) (i : Nat)
    (h : ∀ u, Engine.lookupE s.tasks i = some u → u.status ≠ Engine.EStatus.completed) :
    (Engine.onTaskComplete s i).tasks = s.tasks := by
  unfold Engine.onTaskComplete
  dsimp only
  split
  · rw [Engine.checkDeps_nondone]
    exact Engine.depDone_false _ i h
  · rfl

theorem Engine.tryStart_run_sup (s : Engine.Sched) (j : Nat) (hj : j ∈ s.runningIds) :
    j ∈ (Engine.tryStartNext s).runningIds := by
  unfold Engine.tryStartNext
  split
  · exact hj
  · cases hp : Engine.popMin s with
    | none => exact hj
    | some pr =>
      obtain ⟨m, rest⟩ := pr
      dsimp only
      split
      · exact hj
      · unfold Engine.startTask
        rw [Engine.mem_insertId]
        exact Or.inl hj

theorem Engine.tryStart_lookup_run (s : Engine.Sched) (i : Nat)
    (hi : i ∈ s.runningIds) :
    Engine.lookupE (Engine.tryStartNext s).tasks i = Engine.lookupE s.tasks i := by
  unfold Engine.tryStartNext
  split
  · rfl
  · cases hp : Engine.popMin s with
    | none => rfl
    | some pr =>
      obtain ⟨m, rest⟩ := pr
      dsimp only
      split
      · rfl
      · unfold Engine.startTask
        have hmi : m ≠ i := by
          intro he
          subst he
          exact (by assumption : m ∉ s.runningIds) hi
        exact Engine.lookupE_update_ne s.tasks m i _ (fun he => hmi he.symm)

theorem Engine.tryStart_pend (s : Engine.Sched) :
    (Engine.tryStartNext s).pendingIds = s.pendingIds := by
  unfold Engine.tryStartNext
  split
  · rfl
  · cases hp : Engine.popMin s with
    | none => rfl
    | some pr =>
      obtain ⟨m, rest⟩ := pr
      dsimp only
      split
      · rfl
      · rfl

theorem Engine.tryStart_comp (s : Engine.Sched) :
    (Engine.tryStartNext s).completedIds = s.completedIds := by
  unfold Engine.tryStartNext
  split
  · rfl
  · cases hp : Engine.popMin s with
    | none => rfl
    | some pr =>
      obtain ⟨m, rest⟩ := pr
      dsimp only
      split
      · rfl
      · rfl

theorem Engine.execFinish_timeout_spec (s : Engine.Sched) (i : Nat) (t : Engine.Task)
    (hl : Engine.lookupE s.tasks i = some t) :
    Engine.lookupE (Engine.execFinish s i Engine.Outcome.timeout).tasks i =
      some { t with status := Engine.EStatus.timeout } := by
  unfold Engine.execFinish
  dsimp only
  have hl1 : Engine.lookupE (Engine.updateE s.tasks i
      (fun t => { t with status := Engine.EStatus.timeout })) i =
      some { t with status := Engine.EStatus.timeout } := by
    rw [Engine.lookupE_update_self, hl]
    rfl
  rw [Engine.onComplete_tasks]
  · exact hl1
  · intro u hu
    rw [hl1] at hu
    rw [← Option.some_inj.mp hu]
    intro hcon
    simp at hcon

theorem Engine.execFinish_error_spec (s : Engine.Sched) (i : Nat) (t : Engine.Task)
    (hl : Engine.lookupE s.tasks i = some t) (hrc : t.retryCount < t.maxRetries)
    (hrun : i ∈ s.runningIds) :
    ∃ u, Engine.lookupE (Engine.execFinish s i Engine.Outcome.error).tasks i = some u ∧
      u.retryCount = t.retryCount + 1 ∧ u.maxRetries = t.maxRetries ∧
      (u.status = Engine.EStatus.pending ∨ u.status = Engine.EStatus.queued) := by
  have hlA : Engine.lookupE (Engine.updateE s.tasks i (fun u => { u with retryCount := u.retryCount + 1, status := Engine.EStatus.pending })) i = some { t with retryCount := t.retryCount + 1, status := Engine.EStatus.pending } := by
    rw [Engine.lookupE_update_self, hl]
    rfl
  unfold Engine.execFinish
  dsimp only
  rw [hl]
  dsimp only
  rw [if_pos hrc]
  have hmain : ∃ u, Engine.lookupE (Engine.evaluateTask { s with tasks := Engine.updateE s.tasks i (fun u => { u with retryCount := u.retryCount + 1, status := Engine.EStatus.pending }), pendingIds := Engine.insertId s.pendingIds i } i).tasks i = some u ∧ u.retryCount = t.retryCount + 1 ∧ u.maxRetries = t.maxRetries ∧ (u.status = Engine.EStatus.pending ∨ u.status = Engine.EStatus.queued) := by
    unfold Engine.evaluateTask
    dsimp only
    rw [hlA]
    dsimp only
    split
    · unfold Engine.queueTask
      dsimp only
      refine ⟨{ t with retryCount := t.retryCount + 1, status := Engine.EStatus.queued }, ?_, rfl, rfl, Or.inr rfl⟩
      rw [Engine.tryStart_lookup_run]
      · dsimp only
        rw [Engine.lookupE_update_self, hlA]
        rfl
      · exact hrun
    · exact ⟨{ t with retryCount := t.retryCount + 1, status := Engine.EStatus.pending }, hlA, rfl, rfl, Or.inl rfl⟩
  obtain ⟨u, hu, hu1, hu2, hu3⟩ := hmain
  refine ⟨u, ?_, hu1, hu2, hu3⟩
  rw [Engine.onComplete_tasks]
  · exact hu
  · intro v hv
    rw [hu] at hv
    rw [← Option.some_inj.mp hv]
    rcases hu3 with h | h <;> rw [h] <;> intro hcon <;> simp at hcon

/-- Counterexample to claim C4: task 0 (retry_count 0, max_retries 3,
timeout configured) is running; its execution times out.  The task does
NOT return to PENDING for re-execution: it becomes terminal TIMEOUT at
once, its retry_count stays 0, and it is moved to completed_tasks. -/
theorem c4_timeout_is_terminal_not_retried :
    Engine.statusOfE (Engine.execFinish Engine.c4running 0 Engine.Outcome.timeout) 0 =
      some Engine.EStatus.timeout ∧
    (Engine.lookupE (Engine.execFinish Engine.c4running 0
      Engine.Outcome.timeout).tasks 0).map Engine.Task.retryCount = some 0 ∧
    0 ∉ (Engine.execFinish Engine.c4running 0 Engine.Outcome.timeout).pendingIds ∧
    0 ∈ (Engine.execFinish Engine.c4running 0 Engine.Outcome.timeout).completedIds := by
  refine ⟨by decide, by decide, by decide, by decide⟩

/-- Claim C4 amended: a timeout is terminal immediately — the
asyncio.TimeoutError handler precedes the generic Exception handler, so
a timed-out task gets status TIMEOUT with its retry_count untouched
regardless of remaining retry budget; only a generic execution failure
takes the retry path, which increments retry_count and returns the task
to PENDING (re-queued at once when its dependencies are still met). -/
theorem c4_amended_timeout_terminal_error_retried :
    (∀ (s : Engine.Sched) (i : Nat) (t : Engine.Task),
      Engine.lookupE s.tasks i = some t →
      Engine.lookupE (Engine.execFinish s i Engine.Outcome.timeout).tasks i =
        some { t with status := Engine.EStatus.timeout }) ∧
    (∀ (s : Engine.Sched) (i : Nat) (t : Engine.Task),
      Engine.lookupE s.tasks i = some t → t.retryCount < t.maxRetries →
      i ∈ s.runningIds →
      ∃ u, Engine.lookupE (Engine.execFinish s i Engine.Outcome.error).tasks i = some u ∧
        u.retryCount = t.retryCount + 1 ∧ u.maxRetries = t.maxRetries ∧
        (u.status = Engine.EStatus.pending ∨ u.status = Engine.EStatus.queued)) :=
  ⟨fun s i t hl => Engine.execFinish_timeout_spec s i t hl,
   fun s i t hl hrc hrun => Engine.execFinish_error_spec s i t hl hrc hrun⟩

/-- Witness for the amended C4 at the concrete running task 0. -/
theorem c4_amended_witness :
    Engine.lookupE (Engine.execFinish Engine.c4running 0 Engine.Outcome.timeout).tasks 0 =
      some ⟨0, 2, 0, [], true, 0, 3, Engine.EStatus.timeout⟩ ∧
    ∃ u, Engine.lookupE (Engine.execFinish Engine.c4running 0
        Engine.Outcome.error).tasks 0 = some u ∧
      u.retryCount = 0 + 1 ∧ u.maxRetries = 3 ∧
      (u.status = Engine.EStatus.pending ∨ u.status = Engine.EStatus.queued) :=
  ⟨c4_amended_timeout_terminal_error_retried.1 Engine.c4running 0
      ⟨0, 2, 0, [], true, 0, 3, Engine.EStatus.running⟩ (by decide),
   c4_amended_timeout_terminal_error_retried.2 Engine.c4running 0
      ⟨0, 2, 0, [], true, 0, 3, Engine.EStatus.running⟩ (by decide) (by decide) (by decide)⟩

/-! ## Engine theorems: claim C2 (start order) -/

theorem Engine.keyLt_iff (a b : Engine.Task) :
    Engine.keyLt a b = true ↔
      (b.priority < a.priority ∨ (b.priority = a.priority ∧
        (a.createdAt < b.createdAt ∨ (a.createdAt = b.createdAt ∧ a.id < b.id)))) := by
  unfold Engine.keyLt
  simp [Bool.or_eq_true, Bool.and_eq_true, decide_eq_true_eq, beq_iff_eq]

theorem Engine.keyLt_irrefl (a : Engine.Task) : Engine.keyLt a a = false := by
  refine Bool.eq_false_iff.mpr ?_
  intro h
  rw [Engine.keyLt_iff] at h
  omega

theorem Engine.keyLt_asymm (a b : Engine.Task) (h : Engine.keyLt a b = true) :
    Engine.keyLt b a = false := by
  refine Bool.eq_false_iff.mpr ?_
  intro h2
  rw [Engine.keyLt_iff] at h h2
  omega

theorem Engine.keyLt_trans (a b c : Engine.Task) (h1 : Engine.keyLt a b = true)
    (h2 : Engine.keyLt b c = true) : Engine.keyLt a c = true := by
  rw [Engine.keyLt_iff] at h1 h2 ⊢
  omega

theorem Engine.lessIds_irrefl (s : Engine.Sched) (j : Nat) :
    Engine.lessIds s j j = false := by
  unfold Engine.lessIds
  cases hl : Engine.lookupE s.tasks j with
  | none => rfl
  | some a => exact Engine.keyLt_irrefl a

theorem Engine.lessIds_asymm (s : Engine.Sched) (i j : Nat)
    (h : Engine.lessIds s i j = true) : Engine.lessIds s j i = false := by
  unfold Engine.lessIds at h ⊢
  cases hi : Engine.lookupE s.tasks i with
  | none => rw [hi] at h; simp at h
  | some a =>
    cases hj : Engine.lookupE s.tasks j with
    | none => rw [hi, hj] at h
    | some b =>
      rw [hi, hj] at h
      exact Engine.keyLt_asymm a b h

theorem Engine.lessIds_trans (s : Engine.Sched) (a b c : Nat)
    (h1 : Engine.lessIds s a b = true) (h2 : Engine.lessIds s b c = true) :
    Engine.lessIds s a c = true := by
  unfold Engine.lessIds at h1 h2 ⊢
  cases ha : Engine.lookupE s.tasks a with
  | none => rw [ha] at h1; simp at h1
  | some ta =>
    cases hb : Engine.lookupE s.tasks b with
    | none => rw [ha, hb] at h1; simp at h1
    | some tb =>
      cases hc : Engine.lookupE s.tasks c with
      | none => rw [hb, hc] at h2; simp at h2
      | some tc =>
        rw [ha, hb] at h1
        rw [hb, hc] at h2
        exact Engine.keyLt_trans ta tb tc h1 h2

theorem Engine.minFrom_min (s : Engine.Sched) : ∀ (l : List Nat) (best : Nat),
    (Engine.minFrom s best l = best ∨ (Engine.minFrom s best l ∈ l ∧
      Engine.lessIds s (Engine.minFrom s best l) best = true)) ∧
    (∀ j ∈ l, Engine.lessIds s j (Engine.minFrom s best l) = false) ∧
    Engine.lessIds s best (Engine.minFrom s best l) = false := by
  intro l
  induction l with
  | nil =>
    intro best
    exact ⟨Or.inl rfl, by simp, Engine.lessIds_irrefl s best⟩
  | cons k rest ih =>
    intro best
    unfold Engine.minFrom
    by_cases hkb : Engine.lessIds s k best = true
    · rw [if_pos hkb]
      obtain ⟨ha, hb, hc⟩ := ih k
      refine ⟨?_, ?_, ?_⟩
      · rcases ha with h | ⟨hm, hless⟩
        · refine Or.inr ⟨?_, ?_⟩
          · rw [h]
            exact List.mem_cons_self _ _
          · rw [h]
            exact hkb
        · exact Or.inr ⟨List.mem_cons_of_mem _ hm,
            Engine.lessIds_trans s _ k best hless hkb⟩
      · intro j hj
        rcases List.mem_cons.mp hj with he | hm
        · rw [he]
          exact hc
        · exact hb j hm
      · rcases ha with h | ⟨hm, hless⟩
        · rw [h]
          exact Engine.lessIds_asymm s k best hkb
        · refine Bool.eq_false_iff.mpr ?_
          intro hbm
          have h1 := Engine.lessIds_trans s best _ k hbm hless
          have h2 := Engine.lessIds_asymm s k best hkb
          rw [h1] at h2
          simp at h2
    · rw [if_neg hkb]
      obtain ⟨ha, hb, hc⟩ := ih best
      refine ⟨?_, ?_, ?_⟩
      · rcases ha with h | ⟨hm, hless⟩
        · exact Or.inl h
        · exact Or.inr ⟨List.mem_cons_of_mem _ hm, hless⟩
      · intro j hj
        rcases List.mem_cons.mp hj with he | hm
        · subst he
          refine Bool.eq_false_iff.mpr ?_
          intro hkm
          rcases ha with h | ⟨hm2, hless2⟩
          · rw [h] at hkm
            exact hkb hkm
          · exact hkb (Engine.lessIds_trans s j _ best hkm hless2)
        · exact hb j hm
      · exact hc

theorem Engine.popMin_min (s : Engine.Sched) (m : Nat) (rest : List Nat)
    (h : Engine.popMin s = some (m, rest)) :
    ∀ j ∈ s.queue, Engine.lessIds s j m = false := by
  unfold Engine.popMin at h
  cases hq : s.queue with
  | nil => rw [hq] at h; simp at h
  | cons k tail =>
    rw [hq] at h
    simp only [Option.some_inj] at h
    have hm : m = Engine.minFrom s k tail := by
      have := congrArg Prod.fst h.symm
      simpa using this
    obtain ⟨_, hb, hc⟩ := Engine.minFrom_min s tail k
    intro j hj
    rcases List.mem_cons.mp hj with he | hmem
    · rw [he, hm]
      exact hc
    · rw [hm]
      exact hb j hmem

theorem Engine.tryStart_starts (s : Engine.Sched) (m : Nat) (rest : List Nat)
    (hcap : s.runningIds.length < s.maxConcurrent)
    (hp : Engine.popMin s = some (m, rest)) (hm : m ∉ s.runningIds) :
    Engine.tryStartNext s = Engine.startTask { s with queue := rest } m := by
  unfold Engine.tryStartNext
  rw [if_neg (by omega : ¬ s.maxConcurrent ≤ s.runningIds.length)]
  rw [hp]
  dsimp only
  rw [if_neg hm]

/-- Claim C2 amended: in TaskScheduler (engine/task_scheduler.py) the
heap key `(-priority.value, created_at, id)` realises exactly the strict
chain "higher priority value first, then earlier created_at, then
smaller id" (first conjunct); a pop returns a queued task that no other
queued task strictly precedes in that chain (second conjunct); and when
capacity allows and the popped task is not already running, it is the
one started (third conjunct).  IntelligentScheduler uses the opposite
priority convention — see the counterexample. -/
theorem c2_amended_engine_start_order :
    (∀ a b : Engine.Task, Engine.keyLt a b = true ↔
      (b.priority < a.priority ∨ (b.priority = a.priority ∧
        (a.createdAt < b.createdAt ∨ (a.createdAt = b.createdAt ∧ a.id < b.id))))) ∧
    (∀ (s : Engine.Sched) (m : Nat) (rest : List Nat),
      Engine.popMin s = some (m, rest) →
      m ∈ s.queue ∧ ∀ j ∈ s.queue, Engine.lessIds s j m = false) ∧
    (∀ (s : Engine.Sched) (m : Nat) (rest : List Nat),
      s.runningIds.length < s.maxConcurrent →
      Engine.popMin s = some (m, rest) → m ∉ s.runningIds →
      m ∈ (Engine.tryStartNext s).runningIds) := by
  refine ⟨Engine.keyLt_iff, ?_, ?_⟩
  · intro s m rest hp
    exact ⟨(Engine.popMin_mem s m rest hp).1, Engine.popMin_min s m rest hp⟩
  · intro s m rest hcap hp hm
    rw [Engine.tryStart_starts s m rest hcap hp hm]
    unfold Engine.startTask
    rw [Engine.mem_insertId]
    exact Or.inr rfl

/-- Witness for the amended C2: in the concrete two-task queue, task 1
(priority value 3) pops before task 2 (priority value 1) and is the one
started. -/
theorem c2_amended_witness :
    (1 ∈ Engine.c2esched.queue ∧
      ∀ j ∈ Engine.c2esched.queue, Engine.lessIds Engine.c2esched j 1 = false) ∧
    1 ∈ (Engine.tryStartNext Engine.c2esched).runningIds :=
  ⟨c2_amended_engine_start_order.2.1 Engine.c2esched 1 [2] (by decide),
   c2_amended_engine_start_order.2.2 Engine.c2esched 1 [2] (by decide) (by decide)
     (by decide)⟩

/-! ## Engine theorems: claim C5 (retry bound, failure terminal) -/

theorem Engine.pframe_refl (m : List (Nat × Engine.Task)) : Engine.PFrame m m :=
  fun _ t2 h => ⟨t2, h, rfl, rfl, Or.inl rfl⟩

theorem Engine.pframe_trans {m1 m2 m3 : List (Nat × Engine.Task)}
    (h12 : Engine.PFrame m1 m2) (h23 : Engine.PFrame m2 m3) :
    Engine.PFrame m1 m3 := by
  intro j t3 h3
  obtain ⟨t2, h2, hr2, hm2, hs2⟩ := h23 j t3 h3
  obtain ⟨t1, h1, hr1, hm1, hs1⟩ := h12 j t2 h2
  refine ⟨t1, h1, hr2.trans hr1, hm2.trans hm1, ?_⟩
  rcases hs2 with h | h | h
  · rw [h]
    exact hs1
  · exact Or.inr (Or.inl h)
  · exact Or.inr (Or.inr h)

theorem Engine.pframe_update_qr (m : List (Nat × Engine.Task)) (i : Nat)
    (st : Engine.EStatus)
    (hst : st = Engine.EStatus.queued ∨ st = Engine.EStatus.running) :
    Engine.PFrame m (Engine.updateE m i (fun t => { t with status := st })) := by
  intro j t2 h2
  by_cases hj : j = i
  · subst hj
    rw [Engine.lookupE_update_self] at h2
    cases h1 : Engine.lookupE m j with
    | none => rw [h1] at h2; simp at h2
    | some t1 =>
      rw [h1] at h2
      have h3 : { t1 with status := st } = t2 := Option.some_inj.mp h2
      refine ⟨t1, rfl, ?_, ?_, ?_⟩
      · rw [← h3]
      · rw [← h3]
      · rw [← h3]
        rcases hst with h | h
        · rw [h]
          exact Or.inr (Or.inl rfl)
        · rw [h]
          exact Or.inr (Or.inr rfl)
  · rw [Engine.lookupE_update_ne m i j _ hj] at h2
    exact ⟨t2, h2, rfl, rfl, Or.inl rfl⟩

theorem Engine.pframe_tryStart (s : Engine.Sched) :
    Engine.PFrame s.tasks (Engine.tryStartNext s).tasks := by
  unfold Engine.tryStartNext
  split
  · exact Engine.pframe_refl _
  · cases hp : Engine.popMin s with
    | none => exact Engine.pframe_refl _
    | some pr =>
      obtain ⟨m, rest⟩ := pr
      dsimp only
      split
      · exact Engine.pframe_refl _
      · unfold Engine.startTask
        dsimp only
        exact Engine.pframe_update_qr s.tasks m _ (Or.inr rfl)

theorem Engine.pframe_queueTask (s : Engine.Sched) (i : Nat) :
    Engine.PFrame s.tasks (Engine.queueTask s i).tasks := by
  unfold Engine.queueTask
  dsimp only
  exact Engine.pframe_trans
    (Engine.pframe_update_qr s.tasks i _ (Or.inl rfl))
    (Engine.pframe_tryStart _)

theorem Engine.pframe_evaluate (s : Engine.Sched) (i : Nat) :
    Engine.PFrame s.tasks (Engine.evaluateTask s i).tasks := by
  unfold Engine.evaluateTask
  cases hl : Engine.lookupE s.tasks i with
  | none => exact Engine.pframe_refl _
  | some t =>
    dsimp only
    split
    · exact Engine.pframe_queueTask s i
    · exact Engine.pframe_refl _

theorem Engine.pframe_fold : ∀ (js : List Nat) (s : Engine.Sched),
    Engine.PFrame s.tasks ((js.foldl Engine.evaluateTask s).tasks) := by
  intro js
  induction js with
  | nil => intro s; exact Engine.pframe_refl _
  | cons j rest ih =>
    intro s
    rw [List.foldl_cons]
    exact Engine.pframe_trans (Engine.pframe_evaluate s j) (ih (Engine.evaluateTask s j))

theorem Engine.pframe_checkDeps (s : Engine.Sched) (cid : Nat) :
    Engine.PFrame s.tasks (Engine.checkDependentTasks s cid).tasks := by
  unfold Engine.checkDependentTasks
  exact Engine.pframe_fold _ s

theorem Engine.pframe_onComplete (s : Engine.Sched) (i : Nat) :
    Engine.PFrame s.tasks (Engine.onTaskComplete s i).tasks := by
  unfold Engine.onTaskComplete
  dsimp only
  split
  · exact Engine.pframe_checkDeps _ i
  · exact Engine.pframe_refl _

theorem Engine.pframe_retry_mono {m m2 : List (Nat × Engine.Task)}
    (hpf : Engine.PFrame m m2)
    (hA : ∀ j t, Engine.lookupE m j = some t → t.retryCount ≤ t.maxRetries) :
    ∀ j t, Engine.lookupE m2 j = some t → t.retryCount ≤ t.maxRetries := by
  intro j t2 h2
  obtain ⟨t1, h1, hr, hm, _⟩ := hpf j t2 h2
  rw [hr, hm]
  exact hA j t1 h1

theorem Engine.pframe_status_mono {m m2 : List (Nat × Engine.Task)} (x : Nat)
    (hpf : Engine.PFrame m m2)
    (hB : ∀ t, Engine.lookupE m x = some t → t.status ≠ Engine.EStatus.completed) :
    ∀ t, Engine.lookupE m2 x = some t → t.status ≠ Engine.EStatus.completed := by
  intro t2 h2
  obtain ⟨t1, h1, _, _, hs⟩ := hpf x t2 h2
  rcases hs with h | h | h
  · rw [h]
    exact hB t1 h1
  · rw [h]
    intro hc
    exact absurd hc (by decide)
  · rw [h]
    intro hc
    exact absurd hc (by decide)

theorem Engine.retry_pt_update_status (s : Engine.Sched) (i : Nat)
    (st : Engine.EStatus)
    (ha : ∀ j t, Engine.lookupE s.tasks j = some t → t.retryCount ≤ t.maxRetries) :
    ∀ j t, Engine.lookupE (Engine.updateE s.tasks i
        (fun t => { t with status := st })) j = some t →
      t.retryCount ≤ t.maxRetries := by
  intro j u hu
  by_cases hj : j = i
  · subst hj
    rw [Engine.lookupE_update_self] at hu
    cases h1 : Engine.lookupE s.tasks j with
    | none => rw [h1] at hu; simp at hu
    | some t1 =>
      rw [h1] at hu
      rw [← Option.some_inj.mp hu]
      exact ha j t1 h1
  · rw [Engine.lookupE_update_ne s.tasks i j _ hj] at hu
    exact ha j u hu

theorem Engine.status_pt_update_ne (s : Engine.Sched) (i x : Nat)
    (f : Engine.Task → Engine.Task) (hne : x ≠ i)
    (hb : ∀ t, Engine.lookupE s.tasks x = some t → t.status ≠ Engine.EStatus.completed) :
    ∀ t, Engine.lookupE (Engine.updateE s.tasks i f) x = some t →
      t.status ≠ Engine.EStatus.completed := by
  intro u hu
  rw [Engine.lookupE_update_ne s.tasks i x f hne] at hu
  exact hb u hu

theorem Engine.execFinish_error_terminal (s : Engine.Sched) (i : Nat)
    (t : Engine.Task) (hl : Engine.lookupE s.tasks i = some t)
    (hrc : ¬ t.retryCount < t.maxRetries) :
    Engine.lookupE (Engine.execFinish s i Engine.Outcome.error).tasks i =
      some { t with status := Engine.EStatus.failed } := by
  have hlA : Engine.lookupE (Engine.updateE s.tasks i
      (fun t => { t with status := Engine.EStatus.failed })) i =
      some { t with status := Engine.EStatus.failed } := by
    rw [Engine.lookupE_update_self, hl]
    rfl
  unfold Engine.execFinish
  dsimp only
  rw [hl]
  dsimp only
  rw [if_neg hrc]
  rw [Engine.onComplete_tasks]
  · exact hlA
  · intro u hu
    rw [hlA] at hu
    rw [← Option.some_inj.mp hu]
    intro hcon
    simp at hcon

theorem Engine.retryInv_step (i0 : Nat) (s s2 : Engine.Sched)
    (hs : Engine.StepErr i0 s s2)
    (ha : ∀ j t, Engine.lookupE s.tasks j = some t → t.retryCount ≤ t.maxRetries)
    (hb : ∀ t, Engine.lookupE s.tasks i0 = some t →
      t.status ≠ Engine.EStatus.completed) :
    (∀ j t, Engine.lookupE s2.tasks j = some t → t.retryCount ≤ t.maxRetries) ∧
    (∀ t, Engine.lookupE s2.tasks i0 = some t →
      t.status ≠ Engine.EStatus.completed) := by
  cases hs with
  | submit t hfresh hst hrc =>
    have hpf : Engine.PFrame (Engine.insertE s.tasks t.id t)
        (Engine.submitTask s t).tasks := by
      unfold Engine.submitTask
      dsimp only
      exact Engine.pframe_evaluate _ t.id
    constructor
    · refine Engine.pframe_retry_mono hpf ?_
      intro j u hu
      by_cases hj : j = t.id
      · subst hj
        rw [Engine.lookupE_insert_self s.tasks t.id t hfresh] at hu
        rw [← Option.some_inj.mp hu]
        rw [hrc]
        exact Nat.zero_le _
      · rw [Engine.lookupE_insert_ne s.tasks t.id j t hj] at hu
        exact ha j u hu
    · refine Engine.pframe_status_mono i0 hpf ?_
      intro u hu
      by_cases hj : i0 = t.id
      · subst hj
        rw [Engine.lookupE_insert_self s.tasks t.id t hfresh] at hu
        rw [← Option.some_inj.mp hu]
        rw [hst]
        decide
      · rw [Engine.lookupE_insert_ne s.tasks t.id i0 t hj] at hu
        exact hb u hu
  | finish i o hrun hto herr =>
    cases o with
    | success =>
      have hne : i ≠ i0 := by
        intro he
        exact Engine.Outcome.noConfusion (herr he)
      have hpf : Engine.PFrame
          (Engine.updateE s.tasks i
            (fun t => { t with status := Engine.EStatus.completed }))
          (Engine.execFinish s i Engine.Outcome.success).tasks := by
        unfold Engine.execFinish
        dsimp only
        exact Engine.pframe_onComplete _ i
      exact ⟨Engine.pframe_retry_mono hpf (Engine.retry_pt_update_status s i _ ha),
        Engine.pframe_status_mono i0 hpf
          (Engine.status_pt_update_ne s i i0 _ (fun he => hne he.symm) hb)⟩
    | timeout =>
      have hne : i ≠ i0 := by
        intro he
        exact Engine.Outcome.noConfusion (herr he)
      have hpf : Engine.PFrame
          (Engine.updateE s.tasks i
            (fun t => { t with status := Engine.EStatus.timeout }))
          (Engine.execFinish s i Engine.Outcome.timeout).tasks := by
        unfold Engine.execFinish
        dsimp only
        exact Engine.pframe_onComplete _ i
      exact ⟨Engine.pframe_retry_mono hpf (Engine.retry_pt_update_status s i _ ha),
        Engine.pframe_status_mono i0 hpf
          (Engine.status_pt_update_ne s i i0 _ (fun he => hne he.symm) hb)⟩
    | error =>
      cases hl : Engine.lookupE s.tasks i with
      | none =>
        have hpf : Engine.PFrame s.tasks
            (Engine.execFinish s i Engine.Outcome.error).tasks := by
          unfold Engine.execFinish
          dsimp only
          rw [hl]
          dsimp only
          exact Engine.pframe_onComplete _ i
        exact ⟨Engine.pframe_retry_mono hpf ha, Engine.pframe_status_mono i0 hpf hb⟩
      | some t =>
        by_cases hrc : t.retryCount < t.maxRetries
        · have hpf : Engine.PFrame
              (Engine.updateE s.tasks i (fun u =>
                { u with retryCount := u.retryCount + 1,
                         status := Engine.EStatus.pending }))
              (Engine.execFinish s i Engine.Outcome.error).tasks := by
            unfold Engine.execFinish
            dsimp only
            rw [hl]
            dsimp only
            rw [if_pos hrc]
            exact Engine.pframe_trans
              (Engine.pframe_evaluate _ i)
              (Engine.pframe_onComplete _ i)
          constructor
          · refine Engine.pframe_retry_mono hpf ?_
            intro j u hu
            by_cases hj : j = i
            · subst hj
              rw [Engine.lookupE_update_self, hl] at hu
              rw [← Option.some_inj.mp hu]
              show t.retryCount + 1 ≤ t.maxRetries
              omega
            · rw [Engine.lookupE_update_ne s.tasks i j _ hj] at hu
              exact ha j u hu
          · refine Engine.pframe_status_mono i0 hpf ?_
            intro u hu
            by_cases hj : i0 = i
            · subst hj
              rw [Engine.lookupE_update_self, hl] at hu
              rw [← Option.some_inj.mp hu]
              intro hcon
              simp at hcon
            · rw [Engine.lookupE_update_ne s.tasks i i0 _ hj] at hu
              exact hb u hu
        · have hpf : Engine.PFrame
              (Engine.updateE s.tasks i
                (fun t => { t with status := Engine.EStatus.failed }))
              (Engine.execFinish s i Engine.Outcome.error).tasks := by
            unfold Engine.execFinish
            dsimp only
            rw [hl]
            dsimp only
            rw [if_neg hrc]
            exact Engine.pframe_onComplete _ i
          constructor
          · exact Engine.pframe_retry_mono hpf (Engine.retry_pt_update_status s i _ ha)
          · refine Engine.pframe_status_mono i0 hpf ?_
            intro u hu
            by_cases hj : i0 = i
            · subst hj
              rw [Engine.lookupE_update_self, hl] at hu
              rw [← Option.some_inj.mp hu]
              intro hcon
              simp at hcon
            · rw [Engine.lookupE_update_ne s.tasks i i0 _ hj] at hu
              exact hb u hu
  | cancel i hne =>
    unfold Engine.cancelTaskE
    by_cases hr : i ∈ s.runningIds
    · rw [if_pos hr]
      dsimp only
      by_cases hp : i ∈ s.pendingIds
      · rw [if_pos hp]
        constructor
        · refine Engine.pframe_retry_mono (Engine.pframe_onComplete _ i) ?_
          exact Engine.retry_pt_update_status s i _ ha
        · refine Engine.pframe_status_mono i0 (Engine.pframe_onComplete _ i) ?_
          exact Engine.status_pt_update_ne s i i0 _ (fun he => (hne he.symm).elim) hb
      · rw [if_neg hp]
        exact ⟨Engine.pframe_retry_mono (Engine.pframe_onComplete _ i) ha,
          Engine.pframe_status_mono i0 (Engine.pframe_onComplete _ i) hb⟩
    · rw [if_neg hr]
      by_cases hp : i ∈ s.pendingIds
      · rw [if_pos hp]
        dsimp only
        constructor
        · exact Engine.retry_pt_update_status s i _ ha
        · exact Engine.status_pt_update_ne s i i0 _ (fun he => (hne he.symm).elim) hb
      · rw [if_neg hp]
        exact ⟨ha, hb⟩

/-- Claim C5: along every trace in which every execution attempt of task
`i0` resolves with a generic error and `i0` is never cancelled
(`ReachErr`), (a) every stored task's retry_count never exceeds its
max_retries, (b) task `i0` is never observed COMPLETED, and (c) once its
retry budget is exhausted, one further failing attempt leaves it in the
terminal status FAILED. -/
theorem c5_retry_bound_and_failure_terminal (i0 : Nat) (s : Engine.Sched)
    (h : Engine.ReachErr i0 s) :
    (∀ j t, Engine.lookupE s.tasks j = some t → t.retryCount ≤ t.maxRetries) ∧
    (∀ t, Engine.lookupE s.tasks i0 = some t →
      t.status ≠ Engine.EStatus.completed) ∧
    (∀ t, Engine.lookupE s.tasks i0 = some t → ¬ t.retryCount < t.maxRetries →
      Engine.statusOfE (Engine.execFinish s i0 Engine.Outcome.error) i0 =
        some Engine.EStatus.failed) := by
  have hterm : ∀ (s3 : Engine.Sched) (t : Engine.Task),
      Engine.lookupE s3.tasks i0 = some t → ¬ t.retryCount < t.maxRetries →
      Engine.statusOfE (Engine.execFinish s3 i0 Engine.Outcome.error) i0 =
        some Engine.EStatus.failed := by
    intro s3 t hl hrc
    unfold Engine.statusOfE
    rw [Engine.execFinish_error_terminal s3 i0 t hl hrc]
    rfl
  induction h with
  | init c =>
    refine ⟨?_, ?_, hterm _⟩
    · intro j t hcontra
      exact Option.noConfusion hcontra
    · intro t hcontra
      exact Option.noConfusion hcontra
  | @step s1 s2 hreach hstep ih =>
    obtain ⟨ihA, ihB, _⟩ := ih
    obtain ⟨hA, hB⟩ := Engine.retryInv_step i0 s1 s2 hstep ihA ihB
    exact ⟨hA, hB, hterm _⟩

/-- Witness for C5: task 0 (max_retries 1) is submitted, starts, fails
once (retry 1), and the bound plus never-COMPLETED facts hold in the
resulting state. -/
theorem c5_witness :
    (∀ j t, Engine.lookupE Engine.c5s2.tasks j = some t →
      t.retryCount ≤ t.maxRetries) ∧
    (∀ t, Engine.lookupE Engine.c5s2.tasks 0 = some t →
      t.status ≠ Engine.EStatus.completed) ∧
    (∀ t, Engine.lookupE Engine.c5s2.tasks 0 = some t →
      ¬ t.retryCount < t.maxRetries →
      Engine.statusOfE (Engine.execFinish Engine.c5s2 0 Engine.Outcome.error) 0 =
        some Engine.EStatus.failed) :=
  c5_retry_bound_and_failure_terminal 0 Engine.c5s2
    (Engine.ReachErr.step
      (Engine.ReachErr.step (Engine.ReachErr.init 1)
        (Engine.StepErr.submit Engine.c5task (by decide) rfl rfl))
      (Engine.StepErr.finish 0 Engine.Outcome.error (by decide)
        (fun hcon => Engine.Outcome.noConfusion hcon) (fun _ => rfl)))

/-! ## Core theorems: claim C1 (dependency safety) -/

theorem Core.lookupT_insert_of_some (m : List (Nat × Core.Task)) (i j : Nat)
    (t u : Core.Task) (h : Core.lookupT m j = some u) :
    Core.lookupT (Core.insertT m i t) j = some u :=
  Assoc.find_append_some m [(i, t)] j u h

theorem Core.lookupT_insert_self (m : List (Nat × Core.Task)) (i : Nat)
    (t : Core.Task) (h : Core.lookupT m i = none) :
    Core.lookupT (Core.insertT m i t) i = some t := by
  have h1 := Assoc.find_append_none m [(i, t)] i h
  have h2 : Assoc.find [(i, t)] i = some t := by simp [Assoc.find]
  exact h1.trans h2

theorem Core.lookupT_insert_ne (m : List (Nat × Core.Task)) (i j : Nat)
    (t : Core.Task) (hne : j ≠ i) :
    Core.lookupT (Core.insertT m i t) j = Core.lookupT m j := by
  cases h : Core.lookupT m j with
  | some u => exact Core.lookupT_insert_of_some m i j t u h
  | none =>
    have h1 := Assoc.find_append_none m [(i, t)] j h
    have h2 : Assoc.find [(i, t)] j = none := by
      have hne2 : (i == j) = false := by simp; omega
      simp [Assoc.find, hne2]
    exact h1.trans h2

theorem Core.depsSatisfied_dep (s : Core.Sched) (x : Nat) (t : Core.Task)
    (hl : Core.lookupT s.tasks x = some t)
    (hd : Core.depsSatisfied s x = true) :
    ∀ d ∈ t.dependencies, ∃ dt, Core.lookupT s.tasks d = some dt ∧
      dt.status = Core.TStatus.completed := by
  unfold Core.depsSatisfied at hd
  rw [hl] at hd
  dsimp only at hd
  rw [List.all_eq_true] at hd
  intro d hdm
  have h2 := hd d hdm
  cases hdl : Core.lookupT s.tasks d with
  | none =>
    rw [hdl] at h2
    exact Bool.noConfusion h2
  | some dt =>
    rw [hdl] at h2
    refine ⟨dt, rfl, ?_⟩
    simpa using h2

theorem Core.depsSatisfied_intro (s : Core.Sched) (x : Nat) (t : Core.Task)
    (hl : Core.lookupT s.tasks x = some t)
    (h : ∀ d ∈ t.dependencies, ∃ dt, Core.lookupT s.tasks d = some dt ∧
      dt.status = Core.TStatus.completed) :
    Core.depsSatisfied s x = true := by
  unfold Core.depsSatisfied
  rw [hl]
  dsimp only
  rw [List.all_eq_true]
  intro d hdm
  obtain ⟨dt, hdl, hst⟩ := h d hdm
  rw [hdl]
  dsimp only
  rw [hst]
  decide

theorem Core.depsSatisfied_mono (s s2 : Core.Sched)
    (h : ∀ j u, Core.lookupT s.tasks j = some u → Core.lookupT s2.tasks j = some u)
    (x : Nat) (hd : Core.depsSatisfied s x = true) :
    Core.depsSatisfied s2 x = true := by
  cases hl : Core.lookupT s.tasks x with
  | none =>
    unfold Core.depsSatisfied at hd
    rw [hl] at hd
    exact Bool.noConfusion hd
  | some t =>
    have hdeps := Core.depsSatisfied_dep s x t hl hd
    refine Core.depsSatisfied_intro s2 x t (h x t hl) ?_
    intro d hdm
    obtain ⟨dt, hdl, hst⟩ := hdeps d hdm
    exact ⟨dt, h d dt hdl, hst⟩

theorem Core.insertSorted_perm (s : Core.Sched) (i : Nat) : ∀ (l : List Nat),
    (Core.insertSorted s i l).Perm (i :: l) := by
  intro l
  induction l with
  | nil => exact List.Perm.refl _
  | cons j rest ih =>
    unfold Core.insertSorted
    split
    · exact List.Perm.refl _
    · exact List.Perm.trans (List.Perm.cons j ih) (List.Perm.swap i j rest)

theorem Core.sortQueue_perm (s : Core.Sched) : (Core.sortQueue s).Perm s.queue := by
  unfold Core.sortQueue
  suffices h : ∀ l : List Nat, (l.foldr (Core.insertSorted s) []).Perm l from
    h s.queue
  intro l
  induction l with
  | nil => exact List.Perm.refl _
  | cons j rest ih =>
    rw [List.foldr_cons]
    exact List.Perm.trans (Core.insertSorted_perm s j _) (List.Perm.cons j ih)

theorem Core.nodup_shuffle1 (a b : List Nat) (i : Nat) (h : (a ++ b).Nodup)
    (hia : i ∉ a) (hib : i ∉ b) : ((a ++ [i]) ++ b).Nodup := by
  rw [List.nodup_append] at h ⊢
  obtain ⟨ha, hb, hd⟩ := h
  refine ⟨?_, hb, ?_⟩
  · rw [List.nodup_append]
    refine ⟨ha, List.nodup_singleton i, ?_⟩
    intro x hx hxi
    rw [List.mem_singleton] at hxi
    exact hia (hxi ▸ hx)
  · intro x hx hxb
    rcases List.mem_append.mp hx with h1 | h1
    · exact hd h1 hxb
    · rw [List.mem_singleton] at h1
      exact hib (h1 ▸ hxb)

theorem Core.nodup_shuffle2 (a b : List Nat) (i : Nat) (h : (a ++ b).Nodup)
    (hia : i ∉ a) (hib : i ∉ b) : (a ++ (b ++ [i])).Nodup := by
  rw [List.nodup_append] at h ⊢
  obtain ⟨ha, hb, hd⟩ := h
  refine ⟨ha, ?_, ?_⟩
  · rw [List.nodup_append]
    refine ⟨hb, List.nodup_singleton i, ?_⟩
    intro x hx hxi
    rw [List.mem_singleton] at hxi
    exact hib (hxi ▸ hx)
  · intro x hx hxb
    rcases List.mem_append.mp hxb with h1 | h1
    · exact hd hx h1
    · rw [List.mem_singleton] at h1
      exact hia (h1 ▸ hx)

theorem Core.foldStart_status : ∀ (l : List Nat) (st : Core.Sched) (j : Nat),
    j ∈ l → (∃ u, Core.lookupT st.tasks j = some u) →
    ∃ t, Core.lookupT ((l.foldl Core.startRunning st).tasks) j = some t ∧
      t.status = Core.TStatus.running := by
  intro l
  induction l with
  | nil => intro st j hj _; simp at hj
  | cons i rest ih =>
    intro st j hj hex
    rw [List.foldl_cons]
    by_cases hr : j ∈ rest
    · refine ih (Core.startRunning st i) j hr ?_
      obtain ⟨u, hu⟩ := hex
      unfold Core.startRunning
      dsimp only
      by_cases hji : j = i
      · subst hji
        rw [Core.lookupT_update_self, hu]
        exact ⟨_, rfl⟩
      · rw [Core.lookupT_update_ne st.tasks i j _ hji]
        exact ⟨u, hu⟩
    · have hji : j = i := by
        rcases List.mem_cons.mp hj with h | h
        · exact h
        · exact absurd h hr
      subst hji
      rw [Core.foldStart_lookup rest _ j hr]
      obtain ⟨u, hu⟩ := hex
      unfold Core.startRunning
      dsimp only
      rw [Core.lookupT_update_self, hu]
      exact ⟨_, rfl, rfl⟩

theorem Core.foldStart_frame : ∀ (l : List Nat) (st : Core.Sched) (j : Nat)
    (t2 : Core.Task),
    Core.lookupT ((l.foldl Core.startRunning st).tasks) j = some t2 →
    ∃ t1, Core.lookupT st.tasks j = some t1 ∧ t2.dependencies = t1.dependencies := by
  intro l
  induction l with
  | nil => intro st j t2 h; exact ⟨t2, h, rfl⟩
  | cons i rest ih =>
    intro st j t2 h
    rw [List.foldl_cons] at h
    obtain ⟨tm, hm, hd⟩ := ih (Core.startRunning st i) j t2 h
    unfold Core.startRunning at hm
    dsimp only at hm
    by_cases hji : j = i
    · subst hji
      rw [Core.lookupT_update_self] at hm
      cases h1 : Core.lookupT st.tasks j with
      | none => rw [h1] at hm; simp at hm
      | some t1 =>
        rw [h1] at hm
        have h3 : { t1 with status := Core.TStatus.running } = tm :=
          Option.some_inj.mp hm
        refine ⟨t1, rfl, ?_⟩
        rw [hd, ← h3]
    · rw [Core.lookupT_update_ne st.tasks i j _ hji] at hm
      exact ⟨tm, hm, hd⟩

theorem Core.tickLoop_inv (s : Core.Sched) (avail : Bool) :
    ∀ (order run rem rts : List Nat),
      order.Nodup →
      (∀ j ∈ order, j ∉ run ∧ j ∉ rem ∧ j ∉ rts) →
      (run ++ rem).Nodup →
      (∀ j ∈ rem, j ∉ rts) →
      (∀ j ∈ run, j ∈ rts) →
      ((Core.tickLoop s avail order run rem rts).1 ++
        (Core.tickLoop s avail order run rem rts).2.1).Nodup ∧
      (∀ j ∈ (Core.tickLoop s avail order run rem rts).1,
        j ∈ run ∨ (j ∈ order ∧ j ∉ rts)) ∧
      (∀ j ∈ (Core.tickLoop s avail order run rem rts).2.1,
        j ∈ rem ∨ j ∈ order) ∧
      (∀ j ∈ (Core.tickLoop s avail order run rem rts).2.2,
        j ∈ rts ∨ j ∈ (Core.tickLoop s avail order run rem rts).1) ∧
      (∀ j ∈ rts, j ∈ (Core.tickLoop s avail order run rem rts).2.2) ∧
      (∀ j ∈ (Core.tickLoop s avail order run rem rts).2.1,
        j ∉ (Core.tickLoop s avail order run rem rts).2.2) ∧
      (∀ j ∈ (Core.tickLoop s avail order run rem rts).1,
        j ∈ (Core.tickLoop s avail order run rem rts).2.2) ∧
      (∀ j ∈ run, j ∈ (Core.tickLoop s avail order run rem rts).1) := by
  intro order
  induction order with
  | nil =>
    intro run rem rts hA hB hC hH hD
    exact ⟨hC, fun j hj => Or.inl hj, fun j hj => Or.inl hj, fun j hj => Or.inl hj,
      fun j hj => hj, fun j hj => hH j hj, fun j hj => hD j hj, fun j hj => hj⟩
  | cons i rest ih =>
    intro run rem rts hA hB hC hH hD
    obtain ⟨hirun, hirem, hirts⟩ := hB i (List.mem_cons_self _ _)
    have hAtail : rest.Nodup := (List.nodup_cons.mp hA).2
    have hihead : i ∉ rest := (List.nodup_cons.mp hA).1
    simp only [Core.tickLoop]
    rw [if_neg hirts]
    by_cases hav : avail = true
    · rw [if_pos hav]
      have hB2 : ∀ j ∈ rest, j ∉ run ++ [i] ∧ j ∉ rem ∧ j ∉ i :: rts := by
        intro j hj
        obtain ⟨h1, h2, h3⟩ := hB j (List.mem_cons_of_mem _ hj)
        have hji : j ≠ i := fun he => hihead (he ▸ hj)
        refine ⟨?_, h2, ?_⟩
        · intro hmem
          rcases List.mem_append.mp hmem with h | h
          · exact h1 h
          · rw [List.mem_singleton] at h
            exact hji h
        · intro hmem
          rcases List.mem_cons.mp hmem with h | h
          · exact hji h
          · exact h3 h
      have hC2 : ((run ++ [i]) ++ rem).Nodup :=
        Core.nodup_shuffle1 run rem i hC hirun hirem
      have hH2 : ∀ j ∈ rem, j ∉ i :: rts := by
        intro j hj hmem
        rcases List.mem_cons.mp hmem with h | h
        · exact hirem (h ▸ hj)
        · exact hH j hj h
      have hD2 : ∀ j ∈ run ++ [i], j ∈ i :: rts := by
        intro j hj
        rcases List.mem_append.mp hj with h | h
        · exact List.mem_cons_of_mem _ (hD j h)
        · rw [List.mem_singleton] at h
          exact h ▸ List.mem_cons_self _ _
      obtain ⟨K1, K2, K3, K4, K5, K6, K7, K8⟩ :=
        ih (run ++ [i]) rem (i :: rts) hAtail hB2 hC2 hH2 hD2
      refine ⟨K1, ?_, ?_, ?_, ?_, K6, K7, ?_⟩
      · intro j hj
        rcases K2 j hj with h | h2
        · rcases List.mem_append.mp h with h | h
          · exact Or.inl h
          · rw [List.mem_singleton] at h
            exact Or.inr ⟨h ▸ List.mem_cons_self _ _, h ▸ hirts⟩
        · obtain ⟨h1, h2⟩ := h2
          refine Or.inr ⟨List.mem_cons_of_mem _ h1, ?_⟩
          intro hmem
          exact h2 (List.mem_cons_of_mem _ hmem)
      · intro j hj
        rcases K3 j hj with h | h
        · exact Or.inl h
        · exact Or.inr (List.mem_cons_of_mem _ h)
      · intro j hj
        rcases K4 j hj with h | h
        · rcases List.mem_cons.mp h with h | h
          · exact Or.inr (h ▸ K8 i (List.mem_append.mpr
              (Or.inr (List.mem_singleton.mpr rfl))))
          · exact Or.inl h
        · exact Or.inr h
      · intro j hj
        exact K5 j (List.mem_cons_of_mem _ hj)
      · intro j hj
        exact K8 j (List.mem_append.mpr (Or.inl hj))
    · rw [if_neg hav]
      have hB2 : ∀ j ∈ rest, j ∉ run ∧ j ∉ rem ++ [i] ∧ j ∉ rts := by
        intro j hj
        obtain ⟨h1, h2, h3⟩ := hB j (List.mem_cons_of_mem _ hj)
        have hji : j ≠ i := fun he => hihead (he ▸ hj)
        refine ⟨h1, ?_, h3⟩
        intro hmem
        rcases List.mem_append.mp hmem with h | h
        · exact h2 h
        · rw [List.mem_singleton] at h
          exact hji h
      have hC2 : (run ++ (rem ++ [i])).Nodup :=
        Core.nodup_shuffle2 run rem i hC hirun hirem
      have hH2 : ∀ j ∈ rem ++ [i], j ∉ rts := by
        intro j hj
        rcases List.mem_append.mp hj with h | h
        · exact hH j h
        · rw [List.mem_singleton] at h
          exact h ▸ hirts
      obtain ⟨K1, K2, K3, K4, K5, K6, K7, K8⟩ :=
        ih run (rem ++ [i]) rts hAtail hB2 hC2 hH2 hD
      refine ⟨K1, ?_, ?_, K4, K5, K6, K7, K8⟩
      · intro j hj
        rcases K2 j hj with h | h2
        · exact Or.inl h
        · obtain ⟨h1, h2⟩ := h2
          exact Or.inr ⟨List.mem_cons_of_mem _ h1, h2⟩
      · intro j hj
        rcases K3 j hj with h | h
        · rcases List.mem_append.mp h with h | h
          · exact Or.inl h
          · rw [List.mem_singleton] at h
            exact Or.inr (h ▸ List.mem_cons_self _ _)
        · exact Or.inr (List.mem_cons_of_mem _ h)

theorem Core.inv_add (s : Core.Sched) (t : Core.Task)
    (hfresh : Core.lookupT s.tasks t.taskId = none)
    (hst : t.status = Core.TStatus.pending)
    (h : Core.Inv s) : Core.Inv (Core.addTask s t) := by
  obtain ⟨hKeys, hQN, hDis, hQS, hRS, hQD, hRD⟩ := h
  have hfQ : t.taskId ∉ s.queue := by
    intro hmem
    obtain ⟨u, hu, _⟩ := hQS _ hmem
    rw [hfresh] at hu
    exact Option.noConfusion hu
  have hfR : t.taskId ∉ s.runningTasks := by
    intro hmem
    obtain ⟨u, hu, _⟩ := hRS _ hmem
    rw [hfresh] at hu
    exact Option.noConfusion hu
  have hkeys2 : ((Core.insertT s.tasks t.taskId t).map (fun p => p.1)).Nodup := by
    have hnm := Assoc.find_none_key_not_mem s.tasks t.taskId hfresh
    simp only [Core.insertT, List.map_append, List.map_cons, List.map_nil]
    rw [List.nodup_append]
    refine ⟨hKeys, by simp, ?_⟩
    intro a ha hb
    simp at hb
    exact hnm (hb ▸ ha)
  have hpres : ∀ j u, Core.lookupT s.tasks j = some u →
      Core.lookupT (Core.insertT s.tasks t.taskId t) j = some u :=
    fun j u hu => Core.lookupT_insert_of_some s.tasks t.taskId j t u hu
  have hrdeps : ∀ s3 : Core.Sched, s3.tasks = Core.insertT s.tasks t.taskId t →
      s3.runningTasks = s.runningTasks →
      ∀ j ∈ s3.runningTasks, ∀ u, Core.lookupT s3.tasks j = some u →
      ∀ d ∈ u.dependencies, ∃ dt, Core.lookupT s3.tasks d = some dt ∧
        dt.status = Core.TStatus.completed := by
    intro s3 hts hrs j hj u hu d hd
    rw [hrs] at hj
    rw [hts] at hu
    obtain ⟨w, hw, _⟩ := hRS j hj
    have hw2 := hpres j w hw
    rw [hu] at hw2
    have heq : u = w := Option.some_inj.mp hw2
    subst heq
    obtain ⟨dt, hdt, hdtc⟩ := hRD j hj u hw d hd
    rw [hts]
    exact ⟨dt, hpres d dt hdt, hdtc⟩
  unfold Core.addTask
  dsimp only
  split
  next hds =>
    unfold Core.Inv
    refine ⟨hkeys2, ?_, ?_, ?_, ?_, ?_, ?_⟩
    · rw [List.nodup_append]
      refine ⟨hQN, by simp, ?_⟩
      intro a ha hb
      simp at hb
      exact hfQ (hb ▸ ha)
    · intro j hj hmem
      rcases List.mem_append.mp hmem with hq | hq
      · exact hDis j hj hq
      · simp at hq
        exact hfR (hq ▸ hj)
    · intro x hx
      rcases List.mem_append.mp hx with hq | hq
      · obtain ⟨u, hu, hun⟩ := hQS x hq
        exact ⟨u, hpres x u hu, hun⟩
      · simp at hq
        subst hq
        refine ⟨t, Core.lookupT_insert_self s.tasks t.taskId t hfresh, ?_⟩
        rw [hst]
        decide
    · intro j hj
      obtain ⟨u, hu, hur⟩ := hRS j hj
      exact ⟨u, hpres j u hu, hur⟩
    · intro x hx
      rcases List.mem_append.mp hx with hq | hq
      · exact Core.depsSatisfied_mono s _ hpres x (hQD x hq)
      · simp at hq
        subst hq
        exact hds
    · exact hrdeps _ rfl rfl
  next hds =>
    unfold Core.Inv
    refine ⟨hkeys2, hQN, hDis, ?_, ?_, ?_, ?_⟩
    · intro x hx
      obtain ⟨u, hu, hun⟩ := hQS x hx
      exact ⟨u, hpres x u hu, hun⟩
    · intro j hj
      obtain ⟨u, hu, hur⟩ := hRS j hj
      exact ⟨u, hpres j u hu, hur⟩
    · intro x hx
      exact Core.depsSatisfied_mono s _ hpres x (hQD x hx)
    · exact hrdeps _ rfl rfl

theorem Core.inv_tick (s : Core.Sched) (ok : Bool) (h : Core.Inv s) :
    Core.Inv (Core.tick s ok).1 := by
  obtain ⟨hKeys, hQN, hDis, hQS, hRS, hQD, hRD⟩ := h
  have horder : (Core.sortQueue s).Nodup := (Core.sortQueue_perm s).nodup_iff.mpr hQN
  have hordmem : ∀ j : Nat, j ∈ Core.sortQueue s ↔ j ∈ s.queue :=
    fun j => Core.sortQueue_mem s j
  have hBpre : ∀ j ∈ Core.sortQueue s, j ∉ ([] : List Nat) ∧ j ∉ ([] : List Nat) ∧
      j ∉ s.runningTasks := by
    intro j hj
    refine ⟨by simp, by simp, ?_⟩
    intro hr
    exact hDis j hr ((hordmem j).mp hj)
  obtain ⟨K1, K2, K3, K4, K5, K6, K7, K8⟩ :=
    Core.tickLoop_inv s (ok && decide (s.currentTasks < s.maxConcurrent))
      (Core.sortQueue s) [] [] s.runningTasks horder hBpre (by simp) (by simp)
      (by simp)
  unfold Core.tick
  dsimp only
  obtain ⟨r, hrEq⟩ : ∃ r, Core.tickLoop s
      (ok && decide (s.currentTasks < s.maxConcurrent)) (Core.sortQueue s) [] []
      s.runningTasks = r := ⟨_, rfl⟩
  rw [hrEq] at K1 K2 K3 K4 K5 K6 K7 K8 ⊢
  obtain ⟨runF, remF, rtsF⟩ := r
  dsimp only at K1 K2 K3 K4 K5 K6 K7 K8 ⊢
  have hRunQ : ∀ j ∈ runF, j ∈ s.queue ∧ j ∉ s.runningTasks := by
    intro j hj
    rcases K2 j hj with h2 | h2
    · simp at h2
    · exact ⟨(hordmem j).mp h2.1, h2.2⟩
  have hRemQ : ∀ j ∈ remF, j ∈ s.queue := by
    intro j hj
    rcases K3 j hj with h2 | h2
    · simp at h2
    · exact (hordmem j).mp h2
  have hNd := List.nodup_append.mp K1
  have hRemNotRun : ∀ j ∈ remF, j ∉ runF := by
    intro j hj hjr
    exact hNd.2.2 hjr hj
  have hCompNotRunF : ∀ d (dt : Core.Task), Core.lookupT s.tasks d = some dt →
      dt.status = Core.TStatus.completed → d ∉ runF := by
    intro d dt hdt hdtc hdr
    obtain ⟨hdq, _⟩ := hRunQ d hdr
    obtain ⟨w, hw, hwn⟩ := hQS d hdq
    rw [hdt] at hw
    exact hwn ((Option.some_inj.mp hw) ▸ hdtc)
  unfold Core.Inv
  refine ⟨?_, ?_, ?_, ?_, ?_, ?_, ?_⟩
  · rw [Core.foldStart_keys]
    exact hKeys
  · rw [Core.foldStart_queue]
    exact hNd.2.1
  · intro j hj hmem
    rw [Core.foldStart_running] at hj
    rw [Core.foldStart_queue] at hmem
    dsimp only at hj hmem
    exact K6 j hmem hj
  · intro x hx
    rw [Core.foldStart_queue] at hx
    dsimp only at hx
    obtain ⟨u, hu, hun⟩ := hQS x (hRemQ x hx)
    refine ⟨u, ?_, hun⟩
    rw [Core.foldStart_lookup _ _ x (hRemNotRun x hx)]
    exact hu
  · intro j hj
    rw [Core.foldStart_running] at hj
    dsimp only at hj
    rcases K4 j hj with hold | hnew
    · have hnr : j ∉ runF := by
        intro hjr
        exact (hRunQ j hjr).2 hold
      obtain ⟨u, hu, hur⟩ := hRS j hold
      refine ⟨u, ?_, hur⟩
      rw [Core.foldStart_lookup _ _ j hnr]
      exact hu
    · obtain ⟨hjq, _⟩ := hRunQ j hnew
      obtain ⟨u, hu, _⟩ := hQS j hjq
      exact Core.foldStart_status _ _ j hnew ⟨u, hu⟩
  · intro x hx
    rw [Core.foldStart_queue] at hx
    dsimp only at hx
    have hxq := hRemQ x hx
    obtain ⟨u, hu, _⟩ := hQS x hxq
    have hdeps := Core.depsSatisfied_dep s x u hu (hQD x hxq)
    refine Core.depsSatisfied_intro _ x u ?_ ?_
    · rw [Core.foldStart_lookup _ _ x (hRemNotRun x hx)]
      exact hu
    · intro d hd
      obtain ⟨dt, hdt, hdtc⟩ := hdeps d hd
      refine ⟨dt, ?_, hdtc⟩
      rw [Core.foldStart_lookup _ _ d (hCompNotRunF d dt hdt hdtc)]
      exact hdt
  · intro j hj u2 hu2 d hd
    rw [Core.foldStart_running] at hj
    dsimp only at hj
    obtain ⟨t1, ht1, hdeq⟩ := Core.foldStart_frame _ _ j u2 hu2
    have ht1s : Core.lookupT s.tasks j = some t1 := ht1
    have hdd : d ∈ t1.dependencies := hdeq ▸ hd
    have hdepc : ∃ dt, Core.lookupT s.tasks d = some dt ∧
        dt.status = Core.TStatus.completed := by
      rcases K4 j hj with hold | hnew
      · exact hRD j hold t1 ht1s d hdd
      · obtain ⟨hjq, _⟩ := hRunQ j hnew
        exact Core.depsSatisfied_dep s j t1 ht1s (hQD j hjq) d hdd
    obtain ⟨dt, hdt, hdtc⟩ := hdepc
    refine ⟨dt, ?_, hdtc⟩
    rw [Core.foldStart_lookup _ _ d (hCompNotRunF d dt hdt hdtc)]
    exact hdt

theorem Core.checkDeps_queue (s : Core.Sched) (cid : Nat)
    (hkn : (s.tasks.map (fun p => p.1)).Nodup) :
    ∃ l, (Core.checkDependentTasks s cid).queue = s.queue ++ l ∧
      List.Sublist l (s.tasks.map (fun p => p.1)) ∧
      (∀ x ∈ l, ∃ u, Core.lookupT s.tasks x = some u ∧
        u.status = Core.TStatus.pending ∧ cid ∈ u.dependencies ∧
        Core.depsSatisfied s x = true) := by
  refine ⟨(s.tasks.filter (fun p : Nat × Core.Task =>
      p.2.status == Core.TStatus.pending && p.2.dependencies.contains cid &&
      Core.depsSatisfied s p.1)).map (fun p : Nat × Core.Task => p.1), ?_, ?_, ?_⟩
  · rfl
  · exact (List.filter_sublist _).map _
  · intro x hx
    obtain ⟨p, hpf, hpx⟩ := List.mem_map.mp hx
    have hpm := List.mem_of_mem_filter hpf
    have hcond := List.of_mem_filter hpf
    rw [Bool.and_eq_true, Bool.and_eq_true] at hcond
    obtain ⟨⟨hpend, hcont⟩, hds⟩ := hcond
    refine ⟨p.2, ?_, ?_, ?_, ?_⟩
    · rw [← hpx]
      exact Assoc.find_of_mem_nodup s.tasks p.1 p.2 hpm hkn
    · simpa using hpend
    · exact List.mem_of_elem_eq_true hcont
    · rw [← hpx]
      exact hds

theorem Core.inv_checkDeps (s : Core.Sched) (cid : Nat) (h : Core.Inv s)
    (hqd : ∀ x ∈ s.queue, ∀ u, Core.lookupT s.tasks x = some u →
      cid ∉ u.dependencies) :
    Core.Inv (Core.checkDependentTasks s cid) := by
  obtain ⟨hKeys, hQN, hDis, hQS, hRS, hQD, hRD⟩ := h
  obtain ⟨l, hql, hsub, hlmem⟩ := Core.checkDeps_queue s cid hKeys
  have hlq : ∀ x ∈ l, x ∉ s.queue := by
    intro x hx hxq
    obtain ⟨u, hu, _, hcid, _⟩ := hlmem x hx
    exact hqd x hxq u hu hcid
  have hlr : ∀ x ∈ l, x ∉ s.runningTasks := by
    intro x hx hxr
    obtain ⟨u, hu, hupend, _, _⟩ := hlmem x hx
    obtain ⟨w, hw, hwr⟩ := hRS x hxr
    rw [hu] at hw
    rw [← Option.some_inj.mp hw, hupend] at hwr
    exact Core.TStatus.noConfusion hwr
  unfold Core.Inv
  refine ⟨hKeys, ?_, ?_, ?_, ?_, ?_, ?_⟩
  · rw [hql, List.nodup_append]
    refine ⟨hQN, ?_, ?_⟩
    · exact List.Nodup.sublist hsub hKeys
    · intro a ha hb
      exact hlq a hb ha
  · intro j hj hmem
    rw [hql] at hmem
    have hj2 : j ∈ s.runningTasks := hj
    rcases List.mem_append.mp hmem with h2 | h2
    · exact hDis j hj2 h2
    · exact hlr j h2 hj2
  · intro x hx
    rw [hql] at hx
    rcases List.mem_append.mp hx with h2 | h2
    · obtain ⟨u, hu, hun⟩ := hQS x h2
      exact ⟨u, hu, hun⟩
    · obtain ⟨u, hu, hupend, _, _⟩ := hlmem x h2
      refine ⟨u, hu, ?_⟩
      rw [hupend]
      decide
  · intro j hj
    have hj2 : j ∈ s.runningTasks := hj
    obtain ⟨u, hu, hur⟩ := hRS j hj2
    exact ⟨u, hu, hur⟩
  · intro x hx
    rw [hql] at hx
    rcases List.mem_append.mp hx with h2 | h2
    · exact hQD x h2
    · obtain ⟨u, hu, _, _, hds⟩ := hlmem x h2
      exact hds
  · intro j hj u hu d hd
    exact hRD j hj u hu d hd

theorem Core.inv_finish (s : Core.Sched) (i : Nat) (o : Core.Outcome)
    (hrun : i ∈ s.runningTasks) (h : Core.Inv s) :
    Core.Inv (Core.finishTask s i o) := by
  obtain ⟨hKeys, hQN, hDis, hQS, hRS, hQD, hRD⟩ := h
  obtain ⟨ti, hti, htir⟩ := hRS i hrun
  have hiq : i ∉ s.queue := hDis i hrun
  have hidep : ∀ (u : Core.Task),
      (∀ d ∈ u.dependencies, ∃ dt, Core.lookupT s.tasks d = some dt ∧
        dt.status = Core.TStatus.completed) → i ∉ u.dependencies := by
    intro u hdeps hid
    obtain ⟨dt, hdt, hdtc⟩ := hdeps i hid
    rw [hti] at hdt
    rw [← Option.some_inj.mp hdt, htir] at hdtc
    exact Core.TStatus.noConfusion hdtc
  have hrunmem : ∀ j, j ∈ s.runningTasks.filter (fun j2 => !(j2 == i)) ↔
      (j ∈ s.runningTasks ∧ j ≠ i) := by
    intro j
    rw [List.mem_filter]
    constructor
    · rintro ⟨h1, h2⟩
      refine ⟨h1, ?_⟩
      intro he
      subst he
      simp at h2
    · rintro ⟨h1, h2⟩
      refine ⟨h1, ?_⟩
      simp [h2]
  unfold Core.finishTask
  dsimp only
  refine Core.inv_checkDeps _ i ?_ ?_
  · unfold Core.Inv
    refine ⟨?_, ?_, ?_, ?_, ?_, ?_, ?_⟩
    · dsimp only
      rw [Core.keysT_update]
      exact hKeys
    · exact hQN
    · intro j hj hmem
      dsimp only at hj hmem
      exact hDis j ((hrunmem j).mp hj).1 hmem
    · intro x hx
      dsimp only at hx
      obtain ⟨u, hu, hun⟩ := hQS x hx
      have hxne : x ≠ i := fun he => hiq (he ▸ hx)
      refine ⟨u, ?_, hun⟩
      dsimp only
      rw [Core.lookupT_update_ne s.tasks i x _ hxne]
      exact hu
    · intro j hj
      dsimp only at hj
      obtain ⟨hjr, hjne⟩ := (hrunmem j).mp hj
      obtain ⟨u, hu, hur⟩ := hRS j hjr
      refine ⟨u, ?_, hur⟩
      dsimp only
      rw [Core.lookupT_update_ne s.tasks i j _ hjne]
      exact hu
    · intro x hx
      dsimp only at hx
      obtain ⟨u, hu, _⟩ := hQS x hx
      have hdeps := Core.depsSatisfied_dep s x u hu (hQD x hx)
      have hni : i ∉ u.dependencies := hidep u hdeps
      have hxne : x ≠ i := fun he => hiq (he ▸ hx)
      refine Core.depsSatisfied_intro _ x u ?_ ?_
      · dsimp only
        rw [Core.lookupT_update_ne s.tasks i x _ hxne]
        exact hu
      · intro d hd
        obtain ⟨dt, hdt, hdtc⟩ := hdeps d hd
        have hdne : d ≠ i := fun he => hni (he ▸ hd)
        refine ⟨dt, ?_, hdtc⟩
        dsimp only
        rw [Core.lookupT_update_ne s.tasks i d _ hdne]
        exact hdt
    · intro j hj u2 hu2 d hd
      dsimp only at hj hu2
      obtain ⟨hjr, hjne⟩ := (hrunmem j).mp hj
      rw [Core.lookupT_update_ne s.tasks i j _ hjne] at hu2
      have hdeps := hRD j hjr u2 hu2
      have hni : i ∉ u2.dependencies := hidep u2 hdeps
      obtain ⟨dt, hdt, hdtc⟩ := hdeps d hd
      have hdne : d ≠ i := fun he => hni (he ▸ hd)
      refine ⟨dt, ?_, hdtc⟩
      dsimp only
      rw [Core.lookupT_update_ne s.tasks i d _ hdne]
      exact hdt
  · intro x hx u hu
    dsimp only at hx hu
    have hxne : x ≠ i := fun he => hiq (he ▸ hx)
    rw [Core.lookupT_update_ne s.tasks i x _ hxne] at hu
    exact hidep u (Core.depsSatisfied_dep s x u hu (hQD x hx))

theorem Core.inv_cancel (s : Core.Sched) (i : Nat) (h : Core.Inv s) :
    Core.Inv (Core.cancelTask s i).2 := by
  obtain ⟨hKeys, hQN, hDis, hQS, hRS, hQD, hRD⟩ := h
  unfold Core.cancelTask
  cases hl : Core.lookupT s.tasks i with
  | none =>
    dsimp only
    exact ⟨hKeys, hQN, hDis, hQS, hRS, hQD, hRD⟩
  | some t =>
    dsimp only
    by_cases hp : (t.status == Core.TStatus.pending) = true
    · rw [if_pos hp]
      dsimp only
      have hpend : t.status = Core.TStatus.pending := by simpa using hp
      have hnotrun : i ∉ s.runningTasks := by
        intro hmem
        obtain ⟨u, hu, hur⟩ := hRS i hmem
        rw [hl] at hu
        rw [← Option.some_inj.mp hu, hpend] at hur
        exact Core.TStatus.noConfusion hur
      have hidep : ∀ (u : Core.Task),
          (∀ d ∈ u.dependencies, ∃ dt, Core.lookupT s.tasks d = some dt ∧
            dt.status = Core.TStatus.completed) → i ∉ u.dependencies := by
        intro u hdeps hid
        obtain ⟨dt, hdt, hdtc⟩ := hdeps i hid
        rw [hl] at hdt
        rw [← Option.some_inj.mp hdt, hpend] at hdtc
        exact Core.TStatus.noConfusion hdtc
      unfold Core.Inv
      refine ⟨?_, hQN, hDis, ?_, ?_, ?_, ?_⟩
      · dsimp only
        rw [Core.keysT_update]
        exact hKeys
      · intro x hx
        dsimp only at hx
        obtain ⟨u, hu, hun⟩ := hQS x hx
        by_cases hxi : x = i
        · subst hxi
          refine ⟨{ t with status := Core.TStatus.cancelled }, ?_, ?_⟩
          · dsimp only
            rw [Core.lookupT_update_self, hl]
            rfl
          · intro hc
            simp at hc
        · refine ⟨u, ?_, hun⟩
          dsimp only
          rw [Core.lookupT_update_ne s.tasks i x _ hxi]
          exact hu
      · intro j hj
        dsimp only at hj
        obtain ⟨u, hu, hur⟩ := hRS j hj
        have hji : j ≠ i := fun he => hnotrun (he ▸ hj)
        refine ⟨u, ?_, hur⟩
        dsimp only
        rw [Core.lookupT_update_ne s.tasks i j _ hji]
        exact hu
      · intro x hx
        dsimp only at hx
        obtain ⟨u, hu, _⟩ := hQS x hx
        have hdeps := Core.depsSatisfied_dep s x u hu (hQD x hx)
        have hdi : i ∉ u.dependencies := hidep u hdeps
        by_cases hxi : x = i
        · subst hxi
          have hut : u = t := by
            rw [hl] at hu
            exact (Option.some_inj.mp hu).symm
          refine Core.depsSatisfied_intro _ x { t with status := Core.TStatus.cancelled }
            ?_ ?_
          · dsimp only
            rw [Core.lookupT_update_self, hl]
            rfl
          · intro d hd
            have hd2 : d ∈ t.dependencies := hd
            have hd3 : d ∈ u.dependencies := by rw [hut]; exact hd2
            obtain ⟨dt, hdt, hdtc⟩ := hdeps d hd3
            have hdne : d ≠ x := fun he => hdi (he ▸ hd3)
            refine ⟨dt, ?_, hdtc⟩
            dsimp only
            rw [Core.lookupT_update_ne s.tasks x d _ hdne]
            exact hdt
        · refine Core.depsSatisfied_intro _ x u ?_ ?_
          · dsimp only
            rw [Core.lookupT_update_ne s.tasks i x _ hxi]
            exact hu
          · intro d hd
            obtain ⟨dt, hdt, hdtc⟩ := hdeps d hd
            have hdne : d ≠ i := fun he => hdi (he ▸ hd)
            refine ⟨dt, ?_, hdtc⟩
            dsimp only
            rw [Core.lookupT_update_ne s.tasks i d _ hdne]
            exact hdt
      · intro j hj u2 hu2 d hd
        dsimp only at hj hu2
        have hji : j ≠ i := fun he => hnotrun (he ▸ hj)
        rw [Core.lookupT_update_ne s.tasks i j _ hji] at hu2
        have hdeps := hRD j hj u2 hu2
        have hdi : i ∉ u2.dependencies := hidep u2 hdeps
        obtain ⟨dt, hdt, hdtc⟩ := hdeps d hd
        have hdne : d ≠ i := fun he => hdi (he ▸ hd)
        refine ⟨dt, ?_, hdtc⟩
        dsimp only
        rw [Core.lookupT_update_ne s.tasks i d _ hdne]
        exact hdt
    · rw [if_neg hp]
      exact ⟨hKeys, hQN, hDis, hQS, hRS, hQD, hRD⟩

theorem Core.inv_step (s s2 : Core.Sched) (hstep : Core.Step s s2)
    (h : Core.Inv s) : Core.Inv s2 := by
  cases hstep with
  | add t hfresh hst => exact Core.inv_add s t hfresh hst h
  | tick ok => exact Core.inv_tick s ok h
  | finish i o hrun => exact Core.inv_finish s i o hrun h
  | cancel i => exact Core.inv_cancel s i h

theorem Core.inv_reachable (s : Core.Sched) (h : Core.Reachable s) : Core.Inv s := by
  induction h with
  | init c =>
    exact ⟨by simp [Core.initSched], by simp [Core.initSched],
      by simp [Core.initSched], by simp [Core.initSched], by simp [Core.initSched],
      by simp [Core.initSched], by simp [Core.initSched]⟩
  | step hr hstep ih => exact Core.inv_step _ _ hstep ih

/-- Counterexample to claim C1 (second half): in TaskScheduler, task 2 is
cancelled while queued (the cancel succeeds and sets CANCELLED), task 3
depends on task 2, and WITHOUT any resubmission the cancelled task 2 is
still popped, started and completed, after which task 3 is promoted and
observed RUNNING.  A dependency that ended CANCELLED does not permanently
block its dependent. -/
theorem c1_cancelled_dependency_not_permanent :
    (Engine.cancelTaskE Engine.c1s2 2).1 = true ∧
    Engine.statusOfE Engine.c1s3 2 = some Engine.EStatus.cancelled ∧
    Engine.c1task3.dependencies = [2] ∧
    Engine.statusOfE Engine.c1s7 2 = some Engine.EStatus.completed ∧
    3 ∈ Engine.c1s7.runningIds := by
  refine ⟨by decide, by decide, by decide, by decide, by decide⟩

/-- Claim C1 amended: the first half holds for IntelligentScheduler — in
every reachable state, a task observed RUNNING has every dependency
present with status COMPLETED (each dependency completed before the task
started).  The second half of the original claim (a terminal
non-COMPLETED dependency permanently blocks promotion) is refuted by the
cancellation counterexample. -/
theorem c1_amended_running_requires_completed_deps (s : Core.Sched)
    (h : Core.Reachable s) :
    ∀ i ∈ s.runningTasks, ∀ t, Core.lookupT s.tasks i = some t →
      ∀ d ∈ t.dependencies, ∃ dt, Core.lookupT s.tasks d = some dt ∧
        dt.status = Core.TStatus.completed :=
  (Core.inv_reachable s h).2.2.2.2.2.2

/-- Witness for the amended C1 at the concrete reachable state c1cs5,
where task 2 (depending on task 1) is running: its dependency 1 is
COMPLETED. -/
theorem c1_amended_witness :
    2 ∈ Core.c1cs5.runningTasks ∧
    ∃ dt, Core.lookupT Core.c1cs5.tasks 1 = some dt ∧
      dt.status = Core.TStatus.completed :=
  ⟨by decide,
   c1_amended_running_requires_completed_deps Core.c1cs5
     (Core.Reachable.step
       (Core.Reachable.step
         (Core.Reachable.step
           (Core.Reachable.step
             (Core.Reachable.step (Core.Reachable.init 4)
               (Core.Step.add Core.c1ctask1 (by decide) rfl))
             (Core.Step.tick true))
           (Core.Step.finish 1 Core.Outcome.success (by decide)))
         (Core.Step.add Core.c1ctask2 (by decide) rfl))
       (Core.Step.tick true))
     2 (by decide) ⟨2, 0, 1, [1], Core.TStatus.running⟩ (by decide) 1 (by decide)⟩
